import Mathlib

/-!
Verification of the asynchronous translation orchestration core of the
junie-translator-project repository, shallowly embedded from
`src/junie_translator_project/ai/translation_manager.py` and
`src/ai_layer/translator.py`.

Modelling conventions:

* Wall-clock instants (`time.time()`) are rationals, passed explicitly wherever
  the Python code reads the clock; consecutive reads are non-decreasing.
* `hashlib.md5(s)` is abstracted by its input string `s` itself: the cache key of
  a request is modelled as the exact hash input `f"{text}|{source}|{target}"`.
  Equality of hash inputs and equality of md5 digests of those inputs then
  coincide, which is the only property of the digest the code relies on.
* `asyncio` suspension points do not affect the data flow inside one operation
  (the queue and limiter mutations run under `asyncio.Lock`, and the cache is
  only touched between suspension points of a single task), so the operations
  are modelled as pure state transformers.
* The free-form `metadata` dictionaries (`Dict[str, Any]`) are omitted: no
  verified property reads them.
-/

namespace JunieTranslator

/-- Hash input used both for `TranslationRequest.request_id` and for
`TranslationCache._generate_key`: the Python code computes
`f"{text}|{source_language}|{target_language}"` and hashes it with md5. -/
def hashInput (text source_language target_language : String) : String :=
  text ++ "|" ++ source_language ++ "|" ++ target_language

/-- `TranslationRequest` (`translation_manager.py`, lines 28-67); the
`request_id` defaulting of `__post_init__` is modelled by `request_id` below. -/
structure TranslationRequest where
  text : String
  target_language : String
  source_language : String := "auto"
  deriving Repr, DecidableEq

/-- `TranslationRequest.__post_init__`: the generated id is the md5 of
`f"{text}|{source_language}|{target_language}"` (truncated to 16 hex chars),
modelled by the hash input itself. -/
def TranslationRequest.request_id (r : TranslationRequest) : String :=
  hashInput r.text r.source_language r.target_language

/-- `TranslationResponse` (`translation_manager.py`, lines 70-111). -/
structure TranslationResponse where
  request_id : String
  translated_text : String
  source_text : String
  target_language : String
  source_language : String
  success : Bool := true
  error_message : Option String := none
  deriving Repr, DecidableEq

/-- `TranslationResponse.error` (`translation_manager.py`, lines 113-125). -/
def TranslationResponse.error (request : TranslationRequest)
    (error_message : String) : TranslationResponse :=
  { request_id := request.request_id
    translated_text := ""
    source_text := request.text
    target_language := request.target_language
    source_language := request.source_language
    success := false
    error_message := some error_message }

/-! ## Rate limiter (`translation_manager.py`, lines 207-251) -/

/-- Python's `min` over a nonempty list: the first minimal element wins ties
(a later element replaces the running minimum only when strictly smaller). -/
def pyMin (t : ℚ) : List ℚ → ℚ
  | [] => t
  | x :: xs => pyMin (if x < t then x else t) xs

/-- Python's `min` over a possibly empty list (`min([])` raises `ValueError`). -/
def pyMinList : List ℚ → Option ℚ
  | [] => none
  | t :: ts => some (pyMin t ts)

/-- `RateLimiter.__init__`: the per-minute bound and the recorded timestamps.
The `asyncio.Lock` serializing `acquire` is implicit in the sequential model. -/
structure RateLimiter where
  requests_per_minute : ℕ
  request_times : List ℚ
  deriving Repr, DecidableEq

/-- `RateLimiter.acquire`, called at instant `now`; returns the state after the
grant together with the grant's recorded timestamp.  The code prunes timestamps
older than 60 seconds, and when the pruned window is still full it sleeps
`60 - (now - oldest)` seconds (always positive for a pruned timestamp) and then
records `time.time()`; that recorded instant is modelled as exactly
`oldest + 60`.  The code never re-checks the window after the sleep.  `min([])`
raises in Python; that branch is reachable only for `requests_per_minute = 0`
and is modelled as an immediate grant. -/
def RateLimiter.acquire (rl : RateLimiter) (now : ℚ) : RateLimiter × ℚ :=
  let pruned := rl.request_times.filter (fun t => now - t < 60)
  if rl.requests_per_minute ≤ pruned.length then
    match pyMinList pruned with
    | some oldest_time =>
        let grant := oldest_time + 60
        ({ rl with request_times := pruned ++ [grant] }, grant)
    | none =>
        ({ rl with request_times := pruned ++ [now] }, now)
  else
    ({ rl with request_times := pruned ++ [now] }, now)

/-- Number of recorded timestamps inside the trailing 60-second window ending
at instant `g` (the pruning predicate of `acquire`). -/
def windowCount (g : ℚ) (ts : List ℚ) : ℕ :=
  (ts.filter (fun t => g - t < 60)).length

/-- Inductive invariant of the limiter: every recorded timestamp is at most the
completion instant of the last grant, and the trailing window at that instant
holds at most `requests_per_minute` timestamps. -/
def RateLimiter.Inv (rl : RateLimiter) (lastGrant : ℚ) : Prop :=
  (∀ t ∈ rl.request_times, t ≤ lastGrant) ∧
    windowCount lastGrant rl.request_times ≤ rl.requests_per_minute

/-- One serialized completed `acquire` call: the call instant `now` is not
earlier than the completion instant of the previous grant. -/
def rlStep (s s' : RateLimiter × ℚ) : Prop :=
  ∃ now, s.2 ≤ now ∧ s' = s.1.acquire now

/-- States reachable by a sequence of completed `acquire` calls. -/
def rlReach : (RateLimiter × ℚ) → (RateLimiter × ℚ) → Prop :=
  Relation.ReflTransGen rlStep

/-! ## Translation cache (`translation_manager.py`, lines 128-204) -/

/-- `TranslationCache._generate_key(text, target_language, source_language)`:
md5 of `f"{text}|{source_language}|{target_language}"`, modelled by the hash
input (note the argument order of the format string). -/
def generate_key (text target_language source_language : String) : String :=
  hashInput text source_language target_language

/-- One cache binding: the Python code keeps two dicts `cache : key → response`
and `access_times : key → float` whose key sets always coincide and are
updated in lockstep; they are merged into one association list kept in the
dicts' shared insertion order. -/
structure CacheEntry where
  key : String
  value : TranslationResponse
  atime : ℚ
  deriving Repr, DecidableEq

structure TranslationCache where
  max_size : ℕ
  entries : List CacheEntry
  deriving Repr, DecidableEq

/-- The fingerprint under which `put` stores a response:
`_generate_key(response.source_text, response.target_language, response.source_language)`. -/
def fingerprint (r : TranslationResponse) : String :=
  generate_key r.source_text r.target_language r.source_language

/-- Python's `min(access_times.items(), key=lambda x: x[1])`: first minimal
access time wins ties. -/
def pyMinEntry (e : CacheEntry) : List CacheEntry → CacheEntry
  | [] => e
  | x :: xs => pyMinEntry (if x.atime < e.atime then x else e) xs

/-- `TranslationCache._evict_lru`: on a nonempty cache, delete the binding of
the key with the oldest access time from both dicts. -/
def TranslationCache.evict_lru (c : TranslationCache) : TranslationCache :=
  match c.entries with
  | [] => c
  | e :: es =>
      let oldest_key := (pyMinEntry e es).key
      { c with entries := (e :: es).eraseP (fun x => x.key = oldest_key) }

/-- `TranslationCache.get(text, target_language, source_language)`, reading the
clock as `now`: on a hit the access time of the key is refreshed (dict position
unchanged) and the stored response returned; a miss has no side effect. -/
def TranslationCache.get (c : TranslationCache)
    (text target_language source_language : String) (now : ℚ) :
    Option TranslationResponse × TranslationCache :=
  let key := generate_key text target_language source_language
  match c.entries.find? (fun e => e.key = key) with
  | some e =>
      (some e.value,
        { c with entries :=
            c.entries.map (fun x => if x.key = key then { x with atime := now } else x) })
  | none => (none, c)

/-- `TranslationCache.put(response)`, reading the clock as `now`: if the cache
is at (or beyond) capacity, first evict the least recently used entry; then
bind the response's fingerprint to the response with access time `now`
(in-place update if the key is still present, append otherwise — Python dict
assignment semantics). -/
def TranslationCache.put (c : TranslationCache) (response : TranslationResponse)
    (now : ℚ) : TranslationCache :=
  let key := fingerprint response
  let c₁ := if c.max_size ≤ c.entries.length then c.evict_lru else c
  if c₁.entries.any (fun e => e.key = key) then
    { c₁ with entries :=
        c₁.entries.map (fun e =>
          if e.key = key then { key := key, value := response, atime := now } else e) }
  else
    { c₁ with entries := c₁.entries ++ [{ key := key, value := response, atime := now }] }

/-- `TranslationCache.size`. -/
def TranslationCache.size (c : TranslationCache) : ℕ :=
  c.entries.length

/-- `TranslationCache.clear`. -/
def TranslationCache.clear (c : TranslationCache) : TranslationCache :=
  { c with entries := [] }

/-- Sequential `put` calls, each reading the clock at its own instant. -/
def putAll (c : TranslationCache) : List (TranslationResponse × ℚ) → TranslationCache
  | [] => c
  | (r, t) :: rest => putAll (c.put r t) rest


/-- Constant responses used in concrete scenarios: a successful translation of
`s` from language `"s"` to language `"t"`. -/
def demoResp (s : String) : TranslationResponse :=
  { request_id := hashInput s "s" "t"
    translated_text := "T-" ++ s
    source_text := s
    target_language := "t"
    source_language := "s" }

/-- A concrete LRU scenario: capacity 2, insert `a` at 1 and `b` at 2, `get`
refreshes `a` at 3, and inserting `c` at 4 must evict `b` — the least recently
accessed entry — even though `a` was inserted first. -/
def lruDemo : TranslationCache :=
  ((((⟨2, []⟩ : TranslationCache).put (demoResp "a") 1).put (demoResp "b") 2).get
      "a" "t" "s" 3).2.put (demoResp "c") 4


/-! ## Translator service (`junie_translator_project/ai/translator.py`)

The repository's `TranslatorService` implementations (`AIProviderTranslator`,
`MockTranslator`) realize `batch_translate_async(texts, target_language)` as an
`asyncio.gather` of one `translate_async` task per text: the batch call returns
one translated text per input, or raises the first exception raised by any
per-text task.  The opaque per-text call (prompt rendering plus the AI
endpoint) is the oracle `svc : text → target_language → Except error text`. -/

/-- `batch_translate_async` of the repository's translator services: gather of
per-text calls in task order; the first failing text's exception propagates. -/
def batch_translate_async (svc : String → String → Except String String) :
    List String → String → Except String (List String)
  | [], _ => .ok []
  | t :: ts, target_language =>
      match svc t target_language, batch_translate_async svc ts target_language with
      | .ok tr, .ok trs => .ok (tr :: trs)
      | .error e, _ => .error e
      | .ok _, .error e => .error e

/-! ## Translation manager (`translation_manager.py`, lines 254-636)

`TranslationManager.translate` and `translate_batch` are modelled as state
transformers over the cache.  `rate_limiter.acquire` is invoked on their
uncached paths but neither reads nor influences the computed responses or the
cache, and is verified separately; it is elided from these data-flow models.
The returned `ℕ` counts the underlying service calls the invocation issued. -/

/-- `TranslationManager.translate` (lines 319-364): cache check, service call,
cache store on success; a service exception becomes a failure response and the
cache is left untouched. -/
def TranslationManager.translate (svc : String → String → Except String String)
    (cache : TranslationCache) (text target_language source_language : String)
    (now : ℚ) : TranslationResponse × TranslationCache × ℕ :=
  let request : TranslationRequest := ⟨text, target_language, source_language⟩
  let looked := cache.get text target_language source_language now
  match looked.1 with
  | some cached_response => (cached_response, looked.2, 0)
  | none =>
      let cache₁ := looked.2
      match svc text target_language with
      | .ok translated_text =>
          let response : TranslationResponse :=
            { request_id := request.request_id
              translated_text := translated_text
              source_text := text
              target_language := target_language
              source_language := source_language }
          (response, cache₁.put response now, 1)
      | .error e => (TranslationResponse.error request e, cache₁, 1)

/-- The cache lookups of `translate_batch` (lines 393-397): one `get` per
request in order, threading the access-time refreshes of the hits. -/
def cacheGetAll (cache : TranslationCache) (texts : List String)
    (target_language source_language : String) (now : ℚ) :
    List (Option TranslationResponse) × TranslationCache :=
  match texts with
  | [] => ([], cache)
  | t :: ts =>
      let looked := cache.get t target_language source_language now
      let rest := cacheGetAll looked.2 ts target_language source_language now
      (looked.1 :: rest.1, rest.2)

/-- `[texts[i] for i in uncached_indices]`: the texts at the cache-miss
positions. -/
def uncachedTexts : List String → List (Option TranslationResponse) → List String
  | [], _ => []
  | _ :: _, [] => []
  | t :: ts, none :: rs => t :: uncachedTexts ts rs
  | _ :: ts, some _ :: rs => uncachedTexts ts rs

/-- The success loop of `translate_batch` (lines 415-426):
`zip(uncached_indices, translated_texts)` walks the miss positions in order,
builds a success response per translated text, stores it and fills the slot;
`zip` truncation leaves any extra miss positions unfilled. -/
def fillOk (requests : List TranslationRequest)
    (responses : List (Option TranslationResponse)) (translated : List String)
    (target_language source_language : String) (now : ℚ) (cache : TranslationCache) :
    List (Option TranslationResponse) × TranslationCache :=
  match requests, responses with
  | _, [] => ([], cache)
  | [], rs => (rs, cache)
  | _ :: reqs, some r :: rs =>
      let rest := fillOk reqs rs translated target_language source_language now cache
      (some r :: rest.1, rest.2)
  | req :: reqs, none :: rs =>
      match translated with
      | [] => (none :: rs, cache)
      | tr :: trs =>
          let response : TranslationResponse :=
            { request_id := req.request_id
              translated_text := tr
              source_text := req.text
              target_language := target_language
              source_language := source_language }
          let rest :=
            fillOk reqs rs trs target_language source_language now (cache.put response now)
          (some response :: rest.1, rest.2)

/-- The failure loop of `translate_batch` (lines 432-435): every miss position
receives an error response carrying the caught message; the cache is not
touched. -/
def fillErr (requests : List TranslationRequest)
    (responses : List (Option TranslationResponse)) (e : String) :
    List (Option TranslationResponse) :=
  match requests, responses with
  | _, [] => []
  | [], rs => rs
  | _ :: reqs, some r :: rs => some r :: fillErr reqs rs e
  | req :: reqs, none :: rs => some (TranslationResponse.error req e) :: fillErr reqs rs e

/-- `TranslationManager.translate_batch` (lines 366-437). -/
def TranslationManager.translate_batch (svc : String → String → Except String String)
    (cache : TranslationCache) (texts : List String)
    (target_language source_language : String) (now : ℚ) :
    List TranslationResponse × TranslationCache :=
  let requests := texts.map fun text =>
    (⟨text, target_language, source_language⟩ : TranslationRequest)
  let looked := cacheGetAll cache texts target_language source_language now
  let responses := looked.1
  let cache₁ := looked.2
  if responses.all Option.isSome then
    (responses.filterMap id, cache₁)
  else
    match batch_translate_async svc (uncachedTexts texts responses) target_language with
    | .ok translated_texts =>
        let filled :=
          fillOk requests responses translated_texts target_language source_language
            now cache₁
        (filled.1.filterMap id, filled.2)
    | .error e => ((fillErr requests responses e).filterMap id, cache₁)

/-! ## SRT entities (`junie_translator_project/entity/srt.py`) -/

/-- `SubtitleEntry` (lines 19-56); the same shape also serves for the
`entities.SubtitleEntry` used by `ai_layer` (identical fields). -/
structure SubtitleEntry where
  index : ℤ
  start_time : String
  end_time : String
  content : List String
  deriving Repr, DecidableEq

/-- `SrtFile` (lines 59-117): the entry list; `path` and `metadata` carry no
verified property and are omitted. -/
structure SrtFile where
  entries : List SubtitleEntry
  deriving Repr, DecidableEq

/-- `entities.SubtitleEntry.text` (`src/entities/srt.py`):
`'\n'.join(self.content)`. -/
def SubtitleEntry.text (e : SubtitleEntry) : String :=
  String.intercalate "\n" e.content

/-- The reassembly loop of `translate_srt_file` (lines 610-624): each output
entry keeps index and timing and takes the next `len(entry.content)` translated
lines (`translated_lines[line_index : line_index + num_lines]`, which truncates
if the lines run short). -/
def rebuildEntries : List SubtitleEntry → List String → List SubtitleEntry
  | [], _ => []
  | e :: es, lines =>
      { index := e.index
        start_time := e.start_time
        end_time := e.end_time
        content := lines.take e.content.length } :: rebuildEntries es (lines.drop e.content.length)

/-- `TranslationManager.translate_srt_file` (lines 581-626): flatten all
content lines, `translate_batch` them, and rebuild the per-entry structure from
the translated texts; `from_language` is `self.config.from_language`. -/
def TranslationManager.translate_srt_file (svc : String → String → Except String String)
    (cache : TranslationCache) (file : SrtFile)
    (target_language from_language : String) (now : ℚ) : SrtFile × TranslationCache :=
  let content_lines := (file.entries.map SubtitleEntry.content).flatten
  let batched :=
    TranslationManager.translate_batch svc cache content_lines target_language
      from_language now
  let translated_lines := batched.1.map TranslationResponse.translated_text
  ({ entries := rebuildEntries file.entries translated_lines }, batched.2)

/-! ## `ai_layer` translator (`src/ai_layer/translator.py`)

`AITranslator.translate_subtitle_entry` renders the entry's text through the
prompt template and calls `client.translate_text`; that pipeline is the oracle
`client : text → target_language → Except error text`.  The file-level driver
bounds concurrency with a semaphore and gathers results in task order, which
does not affect the values; it is modelled as a map. -/

/-- `AITranslator.translate_subtitle_entry` (lines 34-56): on success a new
entry with the translated text split on newlines, on any exception the
original entry unchanged. -/
def AITranslator.translate_subtitle_entry (client : String → String → Except String String)
    (entry : SubtitleEntry) (target_language : String) : SubtitleEntry :=
  match client entry.text target_language with
  | .ok translated_text =>
      { index := entry.index
        start_time := entry.start_time
        end_time := entry.end_time
        content := translated_text.splitOn "\n" }
  | .error _ => entry

/-- `AITranslator.translate_srt_file` (lines 58-98): every entry through
`translate_subtitle_entry`, outputs in original submission order. -/
def AITranslator.translate_srt_file (client : String → String → Except String String)
    (entries : List SubtitleEntry) (target_language : String) : List SubtitleEntry :=
  entries.map fun e => AITranslator.translate_subtitle_entry client e target_language

/-! ## Batch processor (`translation_manager.py`, lines 481-579)

One processing cycle of `_batch_processor`: the taken batch is partitioned by
`(target_language, source_language)` into a Python dict of lists (first-arrival
key order, order-preserving within a partition); each partition is dispatched
as one `batch_translate_async(texts, target_lang)` call and resolves its
futures.  The futures are identified by the request's position in the batch. -/

/-- The partition key `(request.target_language, request.source_language)`. -/
def requestKey (r : TranslationRequest) : String × String :=
  (r.target_language, r.source_language)

/-- `by_language[key].append((i, request))` with dict-of-lists semantics:
append to the existing key's list, or add the key at the end. -/
def addToGroups (groups : List ((String × String) × List (ℕ × TranslationRequest)))
    (key : String × String) (item : ℕ × TranslationRequest) :
    List ((String × String) × List (ℕ × TranslationRequest)) :=
  match groups with
  | [] => [(key, [item])]
  | (k, g) :: rest =>
      if k = key then (k, g ++ [item]) :: rest
      else (k, g) :: addToGroups rest key item

/-- The grouping loop (lines 520-525). -/
def by_language (requests : List TranslationRequest) :
    List ((String × String) × List (ℕ × TranslationRequest)) :=
  requests.enum.foldl (fun gs p => addToGroups gs (requestKey p.2) p) []

/-- The success loop of one partition (lines 541-551):
`zip(indices, group_requests, translated_texts)` resolves each future with its
response and stores the response in the cache; `zip` truncation applies. -/
def resolveOk (key : String × String) (group : List (ℕ × TranslationRequest))
    (translated : List String) (now : ℚ) (cache : TranslationCache) :
    List (ℕ × TranslationResponse) × TranslationCache :=
  match group, translated with
  | (i, request) :: grest, tr :: trs =>
      let response : TranslationResponse :=
        { request_id := request.request_id
          translated_text := tr
          source_text := request.text
          target_language := key.1
          source_language := key.2 }
      let rest := resolveOk key grest trs now (cache.put response now)
      ((i, response) :: rest.1, rest.2)
  | _, _ => ([], cache)

/-- One partition of one cycle (lines 528-558): the rate-limited batch call,
then either the success loop or — on the exception path — an identical failure
result carrying the caught message for every future of the partition, with no
cache write. -/
def processGroup (svc : String → String → Except String String)
    (key : String × String) (group : List (ℕ × TranslationRequest)) (now : ℚ)
    (cache : TranslationCache) : List (ℕ × TranslationResponse) × TranslationCache :=
  match batch_translate_async svc (group.map fun p => p.2.text) key.1 with
  | .ok translated_texts => resolveOk key group translated_texts now cache
  | .error e =>
      (group.map fun p => (p.1, TranslationResponse.error p.2 e), cache)

/-- The partition loop of one cycle, in dict key order, threading the cache. -/
def processGroups (svc : String → String → Except String String)
    (groups : List ((String × String) × List (ℕ × TranslationRequest))) (now : ℚ)
    (cache : TranslationCache) : List (ℕ × TranslationResponse) × TranslationCache :=
  match groups with
  | [] => ([], cache)
  | (key, g) :: rest =>
      let done := processGroup svc key g now cache
      let later := processGroups svc rest now done.2
      (done.1 ++ later.1, later.2)

/-- One full processing cycle over a taken batch: group, then dispatch each
partition.  The pair `(i, r)` records that the future of the batch's `i`-th
request was resolved with `r`. -/
def processBatch (svc : String → String → Except String String)
    (batch : List TranslationRequest) (now : ℚ) (cache : TranslationCache) :
    List (ℕ × TranslationResponse) × TranslationCache :=
  processGroups svc (by_language batch) now cache

/-! ## Coordinator control loop (`translation_manager.py`, lines 481-514)

The queue/event state machine of `_batch_processor` interleaved with
`translate_queued` enqueues.  Program points of the background task:
`loopTop` (top of `while True`), `waitingOnEvent` (suspended in
`await batch_event.wait()` after clearing the event on an empty queue), and
`debounceWait` (about to run `wait_for(batch_event.wait(), batch_wait_time)`).
`asyncio.Event.wait()` on a set event completes immediately, so the debounce
step blocks only when `eventSet = false`. -/

inductive ProcPc where
  | loopTop
  | waitingOnEvent
  | debounceWait
  deriving Repr, DecidableEq

structure CoordState where
  queue : ℕ
  eventSet : Bool
  pc : ProcPc
  deriving Repr, DecidableEq

/-- Interleaved transitions: any number of `translate_queued` callers (each
appends under `batch_lock` and sets the event, lines 470-473) and the
background task's own steps (lines 489-514). -/
inductive CoordStep (batchSize : ℕ) : CoordState → CoordState → Prop where
  | enqueue (s : CoordState) :
      CoordStep batchSize s { s with queue := s.queue + 1, eventSet := true }
  | loopTop_empty (s : CoordState) (hpc : s.pc = .loopTop) (hq : s.queue = 0) :
      CoordStep batchSize s { s with eventSet := false, pc := .waitingOnEvent }
  | loopTop_nonempty (s : CoordState) (hpc : s.pc = .loopTop) (hq : s.queue ≠ 0) :
      CoordStep batchSize s { s with pc := .debounceWait }
  | wake (s : CoordState) (hpc : s.pc = .waitingOnEvent) (hev : s.eventSet = true) :
      CoordStep batchSize s { s with pc := .debounceWait }
  | takeEmpty (s : CoordState) (hpc : s.pc = .debounceWait) (hq : s.queue = 0) :
      CoordStep batchSize s { s with pc := .loopTop }
  | takeBatch (s : CoordState) (hpc : s.pc = .debounceWait) (hq : s.queue ≠ 0) :
      CoordStep batchSize s
        { queue := s.queue - min batchSize s.queue,
          eventSet := decide (s.queue - min batchSize s.queue ≠ 0),
          pc := .loopTop }

/-- The coordinator starts idle: empty queue, event clear, loop top. -/
def coordInit : CoordState := { queue := 0, eventSet := false, pc := .loopTop }

def coordReach (batchSize : ℕ) : CoordState → CoordState → Prop :=
  Relation.ReflTransGen (CoordStep batchSize)

/-- Time actually spent blocking in
`wait_for(batch_event.wait(), batch_wait_time)`: zero whenever the event is
already set (the wait completes immediately), otherwise up to
`batch_wait_time`. -/
def debounceBlockBound (batch_wait_time : ℚ) (s : CoordState) : ℚ :=
  if s.eventSet then 0 else batch_wait_time


/-- A response stored for the triple `("a|b", source "c", target "d")`; its
hash input `"a|b|c|d"` coincides with that of the distinct triple
`("a", source "b|c", target "d")`. -/
def collResp : TranslationResponse :=
  { request_id := hashInput "a|b" "c" "d"
    translated_text := "X"
    source_text := "a|b"
    target_language := "d"
    source_language := "c" }

/-- The response a cache key is currently bound to (ignoring access times). -/
def valueAt (c : TranslationCache) (key : String) : Option TranslationResponse :=
  (c.entries.find? (fun e => e.key = key)).map CacheEntry.value

/-- Every response ever stored in the cache is a success result. -/
def CacheAllSuccess (c : TranslationCache) : Prop :=
  ∀ e ∈ c.entries, e.value.success = true

/-- Association-list lookup over the grouping dict (first binding wins; the
dict's keys are unique). -/
def lookupGroup (gs : List ((String × String) × List (ℕ × TranslationRequest)))
    (k : String × String) : Option (List (ℕ × TranslationRequest)) :=
  match gs with
  | [] => none
  | (k₁, g) :: rest => if k₁ = k then some g else lookupGroup rest k

/-- The partition of a batch for one language pair: the indexed requests whose
`(target_language, source_language)` equals `k`, in batch order. -/
def partitionOf (batch : List TranslationRequest) (k : String × String) :
    List (ℕ × TranslationRequest) :=
  batch.enum.filter (fun p => requestKey p.2 = k)

/-- The texts the coordinator sends to the service for one partition. -/
def partitionTexts (batch : List TranslationRequest) (k : String × String) :
    List String :=
  (partitionOf batch k).map (fun p => p.2.text)


/-! ## Theorems -/

theorem pyMin_spec (t : ℚ) (ts : List ℚ) :
    pyMin t ts ∈ t :: ts ∧ ∀ x ∈ t :: ts, pyMin t ts ≤ x := by
  induction ts generalizing t with
  | nil => simp [pyMin]
  | cons a ts ih =>
      obtain ⟨h1, h2⟩ := ih (if a < t then a else t)
      have hstep : pyMin t (a :: ts) = pyMin (if a < t then a else t) ts := rfl
      have hite_t : (if a < t then a else t) ≤ t := by split <;> simp_all [le_of_lt]
      have hite_a : (if a < t then a else t) ≤ a := by
        split
        · exact le_refl a
        · exact le_of_not_lt (by assumption)
      constructor
      · rw [hstep]
        rcases List.mem_cons.1 h1 with h | h
        · rw [h]
          split <;> simp
        · simp [h]
      · intro x hx
        rw [hstep]
        have hmin : pyMin (if a < t then a else t) ts ≤ (if a < t then a else t) :=
          h2 _ (List.mem_cons_self _ _)
        rcases List.mem_cons.1 hx with h | hx'
        · rw [h]
          exact le_trans hmin hite_t
        · rcases List.mem_cons.1 hx' with h | h
          · rw [h]
            exact le_trans hmin hite_a
          · exact h2 _ (List.mem_cons_of_mem _ h)

theorem length_filter_le_of_imp {l : List ℚ} {p q : ℚ → Bool}
    (h : ∀ t ∈ l, p t → q t) : (l.filter p).length ≤ (l.filter q).length := by
  induction l with
  | nil => simp
  | cons a l ih =>
      have ih' := ih (fun t ht => h t (List.mem_cons_of_mem _ ht))
      by_cases hp : p a
      · have hq := h a (List.mem_cons_self _ _) hp
        simp [List.filter_cons, hp, hq]
        omega
      · simp only [List.filter_cons, Bool.not_eq_true] at *
        rw [if_neg (by simp [hp])]
        refine le_trans ih' ?_
        split <;> simp

theorem length_filter_lt_of_mem_not {l : List ℚ} {p : ℚ → Bool} {a : ℚ}
    (ha : a ∈ l) (hpa : ¬ p a) : (l.filter p).length < l.length := by
  induction l with
  | nil => simp at ha
  | cons b l ih =>
      rcases List.mem_cons.1 ha with h | h
      · subst h
        rw [List.filter_cons, if_neg (by simp [hpa])]
        exact Nat.lt_succ_of_le (List.length_filter_le _ _)
      · by_cases hb : p b
        · rw [List.filter_cons, if_pos (by simp [hb])]
          simpa using ih h
        · rw [List.filter_cons, if_neg (by simp [hb])]
          exact Nat.lt_succ_of_lt (ih h)

theorem acquire_preserves_inv (rl : RateLimiter) (g now : ℚ)
    (h1 : 1 ≤ rl.requests_per_minute) (hg : g ≤ now) (hinv : rl.Inv g) :
    (rl.acquire now).1.Inv (rl.acquire now).2 ∧
      (rl.acquire now).1.requests_per_minute = rl.requests_per_minute ∧
      now ≤ (rl.acquire now).2 := by
  obtain ⟨hle, hcount⟩ := hinv
  have hsub : (rl.request_times.filter (fun t => now - t < 60)).length ≤
      windowCount g rl.request_times := by
    refine length_filter_le_of_imp fun t ht hp => ?_
    have hp' : now - t < 60 := by simpa using hp
    have ht' : t ≤ g := hle t ht
    simp only [decide_eq_true_eq]
    linarith
  have hprlen : (rl.request_times.filter (fun t => now - t < 60)).length ≤
      rl.requests_per_minute := le_trans hsub hcount
  rw [RateLimiter.acquire]
  by_cases hfull :
      rl.requests_per_minute ≤ (rl.request_times.filter (fun t => now - t < 60)).length
  · -- the pruned window is full: the call sleeps until the oldest timestamp expires
    have hlen : (rl.request_times.filter (fun t => now - t < 60)).length =
        rl.requests_per_minute := le_antisymm hprlen hfull
    cases hpr : rl.request_times.filter (fun t => now - t < 60) with
    | nil => simp [hpr] at hlen; omega
    | cons p0 ps =>
        obtain ⟨hmem, hmin⟩ := pyMin_spec p0 ps
        rw [hpr] at hlen hfull
        simp only [hpr, if_pos hfull, pyMinList]
        set oldest := pyMin p0 ps with holdest
        have hmemf : oldest ∈ rl.request_times.filter (fun t => now - t < 60) := by
          rw [hpr]; exact hmem
        have hold_window : now - oldest < 60 := by
          have := List.of_mem_filter hmemf
          simpa using this
        have hold_le : ∀ x ∈ p0 :: ps, oldest ≤ x := hmin
        have hmem_le_now : ∀ t ∈ p0 :: ps, t ≤ now := by
          intro t ht
          have ht2 : t ∈ rl.request_times.filter (fun t => now - t < 60) := by
            rw [hpr]; exact ht
          exact le_trans (hle t (List.mem_of_mem_filter ht2)) hg
        refine ⟨⟨?_, ?_⟩, by trivial, by linarith⟩
        · intro t ht
          rcases List.mem_append.1 ht with h | h
          · have := hmem_le_now t h
            linarith
          · simp at h
            simp [h]
        · -- the window at the grant instant drops the expired oldest timestamp
          rw [windowCount, List.filter_append]
          have hgr : (oldest + 60) - (oldest + 60) < (60 : ℚ) := by norm_num
          rw [show ([oldest + 60].filter (fun t => oldest + 60 - t < 60)) = [oldest + 60] by
            simp]
          rw [List.length_append]
          have hlt : ((p0 :: ps).filter (fun t => oldest + 60 - t < 60)).length <
              (p0 :: ps).length := by
            refine length_filter_lt_of_mem_not hmem ?_
            simp
          simp only [List.length_cons] at hlen hlt
          simp only [List.length_singleton]
          omega
  · simp only [if_neg hfull]
    have hself : (rl.request_times.filter (fun t => now - t < 60)).filter
        (fun t => now - t < 60) = rl.request_times.filter (fun t => now - t < 60) := by
      refine List.filter_eq_self.2 ?_
      intro a ha
      simpa using List.of_mem_filter ha
    refine ⟨⟨?_, ?_⟩, by trivial, le_refl now⟩
    · intro t ht
      rcases List.mem_append.1 ht with h | h
      · exact le_trans (hle t (List.mem_of_mem_filter h)) hg
      · simp at h
        simp [h]
    · rw [windowCount, List.filter_append, hself, List.length_append]
      rw [show ([now].filter (fun t => now - t < 60)) = [now] by simp]
      simp only [List.length_singleton]
      omega

theorem rlReach_inv (s₀ s : RateLimiter × ℚ) (h1 : 1 ≤ s₀.1.requests_per_minute)
    (hinv : s₀.1.Inv s₀.2) (hreach : rlReach s₀ s) :
    s.1.Inv s.2 ∧ s.1.requests_per_minute = s₀.1.requests_per_minute := by
  induction hreach with
  | refl => exact ⟨hinv, rfl⟩
  | tail hab hbc ih =>
      obtain ⟨now, hnow, heq⟩ := hbc
      obtain ⟨ihinv, ihrpm⟩ := ih
      rw [heq]
      have hpres := acquire_preserves_inv _ _ now (ihrpm ▸ h1) hnow ihinv
      exact ⟨hpres.1, hpres.2.1.trans ihrpm⟩

/-- C1: for every sequence of completed `acquire()` calls on a `RateLimiter`
configured with `requestsPerMinute ≥ 1` and started with an empty window, after
every grant the number of recorded timestamps falling inside the trailing
60-second window of the limiter's state is at most `requestsPerMinute`. -/
theorem rate_limit_window_bound (rl₀ : RateLimiter) (g₀ : ℚ) (s : RateLimiter × ℚ)
    (h1 : 1 ≤ rl₀.requests_per_minute) (h0 : rl₀.request_times = [])
    (hreach : rlReach (rl₀, g₀) s) :
    windowCount s.2 s.1.request_times ≤ s.1.requests_per_minute := by
  have hinv : (rl₀, g₀).1.Inv (rl₀, g₀).2 := by
    constructor
    · intro t ht
      rw [h0] at ht
      simp at ht
    · simp [windowCount, h0]
  have h := rlReach_inv (rl₀, g₀) s h1 hinv hreach
  exact h.2 ▸ h.1.2

/-- Witness for C1: a concrete two-call run with `requestsPerMinute = 1`; the
second call arrives inside the window and is granted only at instant 60, where
the window again holds a single timestamp. -/
theorem rate_limit_window_bound_witness :
    windowCount 60 [(0 : ℚ), 60] ≤ 1 := by
  have s1 : rlStep (⟨1, []⟩, 0) (⟨1, [0]⟩, 0) :=
    ⟨0, le_refl 0, by norm_num [RateLimiter.acquire, pyMinList, pyMin]⟩
  have s2 : rlStep (⟨1, [0]⟩, 0) (⟨1, [0, 60]⟩, 60) :=
    ⟨10, by norm_num, by norm_num [RateLimiter.acquire, pyMinList, pyMin]⟩
  have hreach : rlReach (⟨1, []⟩, 0) (⟨1, [0, 60]⟩, 60) :=
    Relation.ReflTransGen.tail (Relation.ReflTransGen.tail Relation.ReflTransGen.refl s1) s2
  exact rate_limit_window_bound ⟨1, []⟩ 0 (⟨1, [0, 60]⟩, 60) (by norm_num) rfl hreach

theorem pyMinEntry_spec (e : CacheEntry) (es : List CacheEntry) :
    pyMinEntry e es ∈ e :: es ∧ ∀ x ∈ e :: es, (pyMinEntry e es).atime ≤ x.atime := by
  induction es generalizing e with
  | nil => simp [pyMinEntry]
  | cons a es ih =>
      obtain ⟨h1, h2⟩ := ih (if a.atime < e.atime then a else e)
      have hstep : pyMinEntry e (a :: es) =
          pyMinEntry (if a.atime < e.atime then a else e) es := rfl
      have hite_e : (if a.atime < e.atime then a else e).atime ≤ e.atime := by
        split <;> simp_all [le_of_lt]
      have hite_a : (if a.atime < e.atime then a else e).atime ≤ a.atime := by
        split
        · exact le_refl _
        · exact le_of_not_lt (by assumption)
      constructor
      · rw [hstep]
        rcases List.mem_cons.1 h1 with h | h
        · rw [h]
          split <;> simp
        · simp [h]
      · intro x hx
        rw [hstep]
        have hmin : (pyMinEntry (if a.atime < e.atime then a else e) es).atime ≤
            (if a.atime < e.atime then a else e).atime := h2 _ (List.mem_cons_self _ _)
        rcases List.mem_cons.1 hx with h | hx'
        · rw [h]
          exact le_trans hmin hite_e
        · rcases List.mem_cons.1 hx' with h | h
          · rw [h]
            exact le_trans hmin hite_a
          · exact h2 _ (List.mem_cons_of_mem _ h)

theorem pyMinEntry_of_head_min (e : CacheEntry) (es : List CacheEntry)
    (h : ∀ x ∈ es, ¬ x.atime < e.atime) : pyMinEntry e es = e := by
  induction es generalizing e with
  | nil => rfl
  | cons a es ih =>
      have hstep : pyMinEntry e (a :: es) =
          pyMinEntry (if a.atime < e.atime then a else e) es := rfl
      rw [hstep, if_neg (h a (List.mem_cons_self _ _))]
      exact ih e fun x hx => h x (List.mem_cons_of_mem _ hx)

theorem evict_lru_length (c : TranslationCache) (hne : c.entries ≠ []) :
    c.evict_lru.entries.length + 1 = c.entries.length := by
  rw [TranslationCache.evict_lru]
  cases hc : c.entries with
  | nil => exact absurd hc hne
  | cons e es =>
      obtain ⟨hmem, -⟩ := pyMinEntry_spec e es
      simp only
      rw [List.length_eraseP_of_mem hmem (by simp)]
      simp

theorem evict_lru_max_size (c : TranslationCache) : c.evict_lru.max_size = c.max_size := by
  rcases c with ⟨m, es⟩
  cases es <;> rfl

theorem put_max_size (c : TranslationCache) (r : TranslationResponse) (now : ℚ) :
    (c.put r now).max_size = c.max_size := by
  rw [TranslationCache.put]
  by_cases hfull : c.max_size ≤ c.entries.length
  · simp only [if_pos hfull]
    split <;> simp [evict_lru_max_size]
  · simp only [if_neg hfull]
    split <;> rfl

theorem put_length_le (c : TranslationCache) (r : TranslationResponse) (now : ℚ)
    (hmax : 1 ≤ c.max_size) (hlen : c.entries.length ≤ c.max_size) :
    (c.put r now).entries.length ≤ c.max_size := by
  rw [TranslationCache.put]
  by_cases hfull : c.max_size ≤ c.entries.length
  · simp only [if_pos hfull]
    have hEq : c.entries.length = c.max_size := le_antisymm hlen hfull
    have hne : c.entries ≠ [] := by
      intro h
      rw [h] at hEq
      simp at hEq
      omega
    have hev := evict_lru_length c hne
    split
    · simp only [List.length_map]
      omega
    · simp only [List.length_append, List.length_singleton]
      omega
  · simp only [if_neg hfull]
    push_neg at hfull
    split
    · simp only [List.length_map]
      omega
    · simp only [List.length_append, List.length_singleton]
      omega

theorem putAll_max_size (items : List (TranslationResponse × ℚ)) (c : TranslationCache) :
    (putAll c items).max_size = c.max_size := by
  induction items generalizing c with
  | nil => rfl
  | cons it rest ih =>
      obtain ⟨r, t⟩ := it
      rw [putAll, ih, put_max_size]

theorem putAll_append (l₁ l₂ : List (TranslationResponse × ℚ)) (c : TranslationCache) :
    putAll c (l₁ ++ l₂) = putAll (putAll c l₁) l₂ := by
  induction l₁ generalizing c with
  | nil => rfl
  | cons it rest ih =>
      obtain ⟨r, t⟩ := it
      rw [List.cons_append, putAll, putAll, ih]

theorem putAll_no_evict (items : List (TranslationResponse × ℚ)) (c : TranslationCache)
    (hlen : c.entries.length + items.length ≤ c.max_size)
    (hfresh : ∀ it ∈ items, ∀ e ∈ c.entries, e.key ≠ fingerprint it.1)
    (hnodup : (items.map (fun it => fingerprint it.1)).Nodup) :
    (putAll c items).entries =
      c.entries ++ items.map (fun it => ⟨fingerprint it.1, it.1, it.2⟩) := by
  induction items generalizing c with
  | nil => simp [putAll]
  | cons it rest ih =>
      obtain ⟨r, t⟩ := it
      have hnotfull : ¬ c.max_size ≤ c.entries.length := by
        simp only [List.length_cons] at hlen
        omega
      have hnoany : ¬ c.entries.any (fun e => e.key = fingerprint r) := by
        simp only [List.any_eq_true, decide_eq_true_eq, not_exists, not_and]
        intro e he
        exact hfresh (r, t) (List.mem_cons_self _ _) e he
      have hput : (c.put r t).entries = c.entries ++ [⟨fingerprint r, r, t⟩] := by
        rw [TranslationCache.put]
        simp only [if_neg hnotfull, if_neg hnoany]
      have hputm : (c.put r t).max_size = c.max_size := put_max_size c r t
      have hlen' : (c.put r t).entries.length + rest.length ≤ (c.put r t).max_size := by
        rw [hputm, hput]
        simp only [List.length_append, List.length_singleton]
        simp only [List.length_cons] at hlen
        omega
      have hfresh' : ∀ it' ∈ rest, ∀ e ∈ (c.put r t).entries, e.key ≠ fingerprint it'.1 := by
        intro it' hit' e he
        rw [hput] at he
        rcases List.mem_append.1 he with h | h
        · exact hfresh it' (List.mem_cons_of_mem _ hit') e h
        · simp only [List.mem_singleton] at h
          subst h
          simp only [List.map_cons, List.nodup_cons, List.mem_map] at hnodup
          intro hcontra
          exact hnodup.1 ⟨it', hit', hcontra.symm⟩
      have hnodup' : (rest.map (fun it => fingerprint it.1)).Nodup := by
        simp only [List.map_cons, List.nodup_cons] at hnodup
        exact hnodup.2
      rw [putAll, ih (c.put r t) hlen' hfresh' hnodup', hput, List.append_assoc]
      simp

theorem put_full_evicts_head (c : TranslationCache) (e : CacheEntry) (es : List CacheEntry)
    (r : TranslationResponse) (t : ℚ)
    (hc : c.entries = e :: es)
    (hfull : c.max_size ≤ c.entries.length)
    (hmin : ∀ x ∈ es, ¬ x.atime < e.atime)
    (hfresh : ∀ x ∈ es, x.key ≠ fingerprint r) :
    (c.put r t).entries = es ++ [⟨fingerprint r, r, t⟩] := by
  have hev : c.evict_lru.entries = es := by
    rw [TranslationCache.evict_lru]
    rcases c with ⟨m, ents⟩
    simp only at hc
    subst hc
    simp only
    rw [pyMinEntry_of_head_min e es hmin]
    exact List.eraseP_cons_of_pos (by simp)
  have hnoany : ¬ (es.any fun x => decide (x.key = fingerprint r)) = true := by
    simp only [List.any_eq_true, decide_eq_true_eq, not_exists, not_and]
    exact hfresh
  rw [TranslationCache.put]
  simp only [if_pos hfull, hev]
  rw [if_neg hnoany]

/-- C2: for every `TranslationCache` with capacity `maxSize ≥ 1`, a `put` on a
cache holding at most `maxSize` entries again leaves at most `maxSize` entries
(so the bound holds after every operation of any sequence); inserting
`maxSize + 1` results with distinct fingerprints at increasing access times
into an empty cache leaves exactly `maxSize` entries, namely all but the entry
with the oldest `lastAccessTime`; and eviction follows least-recent access
(`get` on a hit refreshes the access time), not insertion order, as the
capacity-2 scenario `lruDemo` shows: after `get` refreshes `a`, inserting `c`
evicts `b` and keeps the older-inserted `a`. -/
theorem cache_capacity_lru (max : ℕ) (c : TranslationCache) (r : TranslationResponse)
    (now : ℚ) (init : List (TranslationResponse × ℚ)) (lastIt : TranslationResponse × ℚ)
    (hmax : 1 ≤ max) (hc : c.max_size = max) (hclen : c.entries.length ≤ max)
    (hinit : init.length = max)
    (hnodup : ((init ++ [lastIt]).map (fun it => fingerprint it.1)).Nodup)
    (hchain : ((init ++ [lastIt]).map Prod.snd).Chain' (· < ·)) :
    (c.put r now).entries.length ≤ max ∧
    (putAll ⟨max, []⟩ (init ++ [lastIt])).entries.length = max ∧
    (putAll ⟨max, []⟩ (init ++ [lastIt])).entries.map CacheEntry.key =
      (init.tail ++ [lastIt]).map (fun it => fingerprint it.1) ∧
    lruDemo.entries.map CacheEntry.key =
      [generate_key "a" "t" "s", generate_key "c" "t" "s"] := by
  obtain ⟨rl, tl⟩ := lastIt
  have hbound : (c.put r now).entries.length ≤ max := by
    have h := put_length_le c r now (hc ▸ hmax) (hc ▸ hclen)
    rwa [hc] at h
  cases init with
  | nil =>
      simp at hinit
      omega
  | cons i0 irest =>
      have hnodup' : ((i0 :: irest).map (fun it => fingerprint it.1)).Nodup := by
        rw [List.map_append] at hnodup
        exact (List.nodup_append.1 hnodup).1
      have hmid : (putAll ⟨max, []⟩ (i0 :: irest)).entries =
          (i0 :: irest).map (fun it => ⟨fingerprint it.1, it.1, it.2⟩) := by
        refine putAll_no_evict _ _ ?_ ?_ hnodup'
        · simpa using le_of_eq hinit
        · intro it hit e he
          simp at he
      have hmidm : (putAll ⟨max, []⟩ (i0 :: irest)).max_size = max :=
        putAll_max_size _ _
      have hpair : List.Pairwise (· < ·) (((i0 :: irest) ++ [(rl, tl)]).map Prod.snd) :=
        List.chain'_iff_pairwise.1 hchain
      rw [List.cons_append, List.map_cons, List.pairwise_cons] at hpair
      have hstep : putAll (⟨max, []⟩ : TranslationCache) ((i0 :: irest) ++ [(rl, tl)]) =
          (putAll ⟨max, []⟩ (i0 :: irest)).put rl tl := by
        rw [putAll_append]
        rfl
      have hput := put_full_evicts_head (putAll ⟨max, []⟩ (i0 :: irest))
        ⟨fingerprint i0.1, i0.1, i0.2⟩
        (irest.map (fun it => ⟨fingerprint it.1, it.1, it.2⟩)) rl tl
        (by rw [hmid, List.map_cons]) ?_ ?_ ?_
      · refine ⟨hbound, ?_, ?_, by decide⟩
        · rw [hstep, hput]
          simp only [List.length_append, List.length_map, List.length_singleton]
          simp only [List.length_cons] at hinit
          omega
        · rw [hstep, hput]
          simp only [List.map_append, List.map_map, List.map_cons, List.tail_cons]
          simp [Function.comp]
      · rw [hmidm, hmid]
        simp only [List.length_map, List.length_cons]
        simp only [List.length_cons] at hinit
        omega
      · intro x hx
        simp only [List.mem_map] at hx
        obtain ⟨it, hit, hx⟩ := hx
        subst hx
        have : i0.2 < it.2 := by
          refine hpair.1 it.2 ?_
          rw [List.map_append]
          exact List.mem_append.2 (Or.inl (List.mem_map.2 ⟨it, hit, rfl⟩))
        simp only
        exact not_lt_of_gt this
      · intro x hx
        simp only [List.mem_map] at hx
        obtain ⟨it, hit, hx⟩ := hx
        subst hx
        rw [List.map_append, List.nodup_append] at hnodup
        have hdisj := hnodup.2.2
        simp only
        intro hcontra
        refine hdisj (a := fingerprint it.1) ?_ ?_
        · exact List.mem_map.2 ⟨it, List.mem_cons_of_mem _ hit, rfl⟩
        · simp [hcontra]

/-- Witness for C2: capacity 1, insert fingerprints `a` then `b`; exactly one
entry remains and it is `b`; plus the concrete `lruDemo` check. -/
theorem cache_capacity_lru_witness :
    ((⟨1, []⟩ : TranslationCache).put (demoResp "x") 0).entries.length ≤ 1 ∧
    (putAll ⟨1, []⟩ ([(demoResp "a", 1)] ++ [(demoResp "b", 2)])).entries.length = 1 ∧
    (putAll ⟨1, []⟩ ([(demoResp "a", 1)] ++ [(demoResp "b", 2)])).entries.map CacheEntry.key =
      ([(demoResp "a", (1 : ℚ))].tail ++ [(demoResp "b", 2)]).map
        (fun it : TranslationResponse × ℚ => fingerprint it.1) ∧
    lruDemo.entries.map CacheEntry.key =
      [generate_key "a" "t" "s", generate_key "c" "t" "s"] :=
  cache_capacity_lru 1 ⟨1, []⟩ (demoResp "x") 0 [(demoResp "a", 1)] (demoResp "b", 2)
    (by norm_num) rfl (by simp) (by simp) (by decide) (by norm_num [List.chain'_cons])

theorem coordReach_inv (batchSize : ℕ) (s : CoordState)
    (h : coordReach batchSize coordInit s) :
    (s.queue ≠ 0 → s.eventSet = true) ∧ (s.pc = .debounceWait → s.eventSet = true) := by
  induction h with
  | refl => simp [coordInit]
  | tail hab hbc ih =>
      cases hbc with
      | enqueue => simp
      | loopTop_empty hpc hq =>
          refine ⟨fun h => ?_, fun h => ?_⟩
          · simp only at h
            exact absurd hq h
          · simp at h
      | loopTop_nonempty hpc hq =>
          exact ⟨fun _ => ih.1 hq, fun _ => ih.1 hq⟩
      | wake hpc hev =>
          exact ⟨fun _ => hev, fun _ => hev⟩
      | takeEmpty hpc hq =>
          refine ⟨fun h => ?_, fun h => ?_⟩
          · simp only at h
            exact absurd hq h
          · simp at h
      | takeBatch hpc hq =>
          refine ⟨fun h => ?_, fun h => ?_⟩
          · simp only at h ⊢
            simpa using h
          · simp at h

/-- C8 (refuted, code bug): `_batch_processor` never clears `batch_event`
before its `wait_for(batch_event.wait(), batch_wait_time)` call — the event is
cleared only when the queue is empty, and every path into the debounce point
has a nonempty queue or was woken by an enqueue that set the event.  Hence in
every reachable state at the debounce point the event is already set and the
wait completes immediately: the processor never blocks waiting up to
`batchWaitTime` for further arrivals, contrary to the claimed debounce
window. -/
theorem coordinator_debounce_never_waits (batchSize : ℕ) (batch_wait_time : ℚ)
    (s : CoordState) (hreach : coordReach batchSize coordInit s)
    (hpc : s.pc = .debounceWait) :
    s.eventSet = true ∧ debounceBlockBound batch_wait_time s = 0 := by
  have hev := (coordReach_inv batchSize s hreach).2 hpc
  exact ⟨hev, by simp [debounceBlockBound, hev]⟩

/-- Witness for the C8 refutation: after the first enqueue into the idle
coordinator, the processor reaches the debounce point with the event still
set, so the debounce blocks for 0 seconds (with `batchWaitTime = 1/2`). -/
theorem coordinator_debounce_never_waits_witness :
    ({ queue := 1, eventSet := true, pc := .debounceWait } : CoordState).eventSet = true ∧
      debounceBlockBound (1 / 2)
        ({ queue := 1, eventSet := true, pc := .debounceWait } : CoordState) = 0 := by
  have h1 : CoordStep 10 coordInit { queue := 1, eventSet := true, pc := .loopTop } :=
    CoordStep.enqueue coordInit
  have h2 : CoordStep 10 { queue := 1, eventSet := true, pc := .loopTop }
      { queue := 1, eventSet := true, pc := .debounceWait } :=
    CoordStep.loopTop_nonempty _ rfl (by simp)
  have hreach : coordReach 10 coordInit { queue := 1, eventSet := true, pc := .debounceWait } :=
    Relation.ReflTransGen.tail (Relation.ReflTransGen.tail Relation.ReflTransGen.refl h1) h2
  exact coordinator_debounce_never_waits 10 (1 / 2) _ hreach rfl

theorem cacheGetAll_length (texts : List String) (cache : TranslationCache)
    (target_language source_language : String) (now : ℚ) :
    (cacheGetAll cache texts target_language source_language now).1.length = texts.length := by
  induction texts generalizing cache with
  | nil => rfl
  | cons t ts ih =>
      simp only [cacheGetAll, List.length_cons]
      rw [ih]

theorem batch_translate_async_ok_length (svc : String → String → Except String String)
    (texts : List String) (target_language : String) (out : List String)
    (h : batch_translate_async svc texts target_language = .ok out) :
    out.length = texts.length := by
  induction texts generalizing out with
  | nil =>
      simp only [batch_translate_async] at h
      cases h
      rfl
  | cons t ts ih =>
      simp only [batch_translate_async] at h
      cases hsvc : svc t target_language with
      | ok tr =>
          rw [hsvc] at h
          cases hrest : batch_translate_async svc ts target_language with
          | ok trs =>
              rw [hrest] at h
              cases h
              simp only [List.length_cons]
              rw [ih trs hrest]
          | error e =>
              rw [hrest] at h
              cases h
      | error e =>
          rw [hsvc] at h
          cases h

theorem uncachedTexts_length (texts : List String)
    (rs : List (Option TranslationResponse)) (h : texts.length = rs.length) :
    (uncachedTexts texts rs).length = rs.countP (fun r => r.isNone) := by
  induction texts generalizing rs with
  | nil =>
      cases rs with
      | nil => rfl
      | cons r rs => simp at h
  | cons t ts ih =>
      cases rs with
      | nil => simp at h
      | cons r rs =>
          simp only [List.length_cons] at h
          cases r with
          | none =>
              simp only [uncachedTexts, List.length_cons, List.countP_cons]
              rw [ih rs (by omega)]
              simp
          | some v =>
              simp only [uncachedTexts, List.countP_cons]
              rw [ih rs (by omega)]
              simp

theorem fillOk_length (rs : List (Option TranslationResponse))
    (reqs : List TranslationRequest) (translated : List String)
    (target_language source_language : String) (now : ℚ) (cache : TranslationCache) :
    (fillOk reqs rs translated target_language source_language now cache).1.length =
      rs.length := by
  induction rs generalizing reqs translated cache with
  | nil => cases reqs <;> rfl
  | cons r rs ih =>
      cases reqs with
      | nil => rfl
      | cons req reqs =>
          cases r with
          | some v =>
              simp only [fillOk, List.length_cons]
              rw [ih]
          | none =>
              cases translated with
              | nil => rfl
              | cons tr trs =>
                  simp only [fillOk, List.length_cons]
                  rw [ih]

theorem fillOk_all_isSome (rs : List (Option TranslationResponse))
    (reqs : List TranslationRequest) (translated : List String)
    (target_language source_language : String) (now : ℚ) (cache : TranslationCache)
    (hreq : rs.length ≤ reqs.length)
    (htr : rs.countP (fun r => r.isNone) ≤ translated.length) :
    ∀ x ∈ (fillOk reqs rs translated target_language source_language now cache).1,
      x.isSome := by
  induction rs generalizing reqs translated cache with
  | nil =>
      cases reqs with
      | nil => intro x hx; simp [fillOk] at hx
      | cons req reqs => intro x hx; simp [fillOk] at hx
  | cons r rs ih =>
      cases reqs with
      | nil => simp at hreq
      | cons req reqs =>
          simp only [List.length_cons] at hreq
          cases r with
          | some v =>
              simp only [fillOk]
              intro x hx
              rcases List.mem_cons.1 hx with h | h
              · simp [h]
              · refine ih reqs translated cache (by omega) ?_ x h
                simpa [List.countP_cons] using htr
          | none =>
              have htr' : rs.countP (fun r => r.isNone) + 1 ≤ translated.length := by
                simpa [List.countP_cons] using htr
              cases translated with
              | nil => simp at htr'
              | cons tr trs =>
                  simp only [fillOk]
                  intro x hx
                  rcases List.mem_cons.1 hx with h | h
                  · simp [h]
                  · refine ih reqs trs _ (by omega) ?_ x h
                    simp only [List.length_cons] at htr'
                    omega

theorem fillErr_length (rs : List (Option TranslationResponse))
    (reqs : List TranslationRequest) (e : String) (hreq : rs.length ≤ reqs.length) :
    (fillErr reqs rs e).length = rs.length := by
  induction rs generalizing reqs with
  | nil => cases reqs <;> rfl
  | cons r rs ih =>
      cases reqs with
      | nil => simp at hreq
      | cons req reqs =>
          simp only [List.length_cons] at hreq
          cases r with
          | some v =>
              simp only [fillErr, List.length_cons]
              rw [ih reqs (by omega)]
          | none =>
              simp only [fillErr, List.length_cons]
              rw [ih reqs (by omega)]

theorem fillErr_all_isSome (rs : List (Option TranslationResponse))
    (reqs : List TranslationRequest) (e : String) (hreq : rs.length ≤ reqs.length) :
    ∀ x ∈ fillErr reqs rs e, x.isSome := by
  induction rs generalizing reqs with
  | nil =>
      cases reqs with
      | nil => intro x hx; simp [fillErr] at hx
      | cons req reqs => intro x hx; simp [fillErr] at hx
  | cons r rs ih =>
      cases reqs with
      | nil => simp at hreq
      | cons req reqs =>
          simp only [List.length_cons] at hreq
          cases r with
          | some v =>
              simp only [fillErr]
              intro x hx
              rcases List.mem_cons.1 hx with h | h
              · simp [h]
              · exact ih reqs (by omega) x h
          | none =>
              simp only [fillErr]
              intro x hx
              rcases List.mem_cons.1 hx with h | h
              · simp [h]
              · exact ih reqs (by omega) x h

theorem filterMap_id_length_of_isSome {l : List (Option TranslationResponse)}
    (h : ∀ x ∈ l, x.isSome) : (l.filterMap id).length = l.length := by
  induction l with
  | nil => rfl
  | cons x l ih =>
      cases x with
      | none =>
          have := h none (List.mem_cons_self _ _)
          simp at this
      | some v =>
          simp only [List.filterMap_cons, id_eq, List.length_cons]
          rw [ih fun x hx => h x (List.mem_cons_of_mem _ hx)]

theorem translate_batch_length (svc : String → String → Except String String)
    (cache : TranslationCache) (texts : List String)
    (target_language source_language : String) (now : ℚ) :
    (TranslationManager.translate_batch svc cache texts target_language
        source_language now).1.length = texts.length := by
  rw [TranslationManager.translate_batch]
  simp only
  have hget := cacheGetAll_length texts cache target_language source_language now
  by_cases hall :
      (cacheGetAll cache texts target_language source_language now).1.all Option.isSome
  · rw [if_pos hall]
    rw [filterMap_id_length_of_isSome, hget]
    intro x hx
    exact List.all_eq_true.1 hall x hx
  · rw [if_neg hall]
    have hreqlen : (cacheGetAll cache texts target_language source_language now).1.length ≤
        (texts.map fun text =>
          (⟨text, target_language, source_language⟩ : TranslationRequest)).length := by
      rw [List.length_map, hget]
    cases hsvc : batch_translate_async svc
        (uncachedTexts texts (cacheGetAll cache texts target_language source_language now).1)
        target_language with
    | ok translated_texts =>
        rw [filterMap_id_length_of_isSome, fillOk_length, hget]
        refine fillOk_all_isSome _ _ _ _ _ _ _ hreqlen ?_
        rw [batch_translate_async_ok_length svc _ _ _ hsvc,
          uncachedTexts_length texts _ hget.symm]
    | error e =>
        rw [filterMap_id_length_of_isSome, fillErr_length _ _ _ hreqlen, hget]
        exact fillErr_all_isSome _ _ _ hreqlen

theorem rebuildEntries_length (es : List SubtitleEntry) (lines : List String) :
    (rebuildEntries es lines).length = es.length := by
  induction es generalizing lines with
  | nil => rfl
  | cons e es ih =>
      simp only [rebuildEntries, List.length_cons]
      rw [ih]

theorem rebuildEntries_content_lengths (es : List SubtitleEntry) (lines : List String)
    (h : (es.map fun e => e.content.length).sum ≤ lines.length) :
    (rebuildEntries es lines).map (fun e => e.content.length) =
      es.map fun e => e.content.length := by
  induction es generalizing lines with
  | nil => rfl
  | cons e es ih =>
      simp only [List.map_cons, List.sum_cons] at h
      simp only [rebuildEntries, List.map_cons]
      congr 1
      · simp only [List.length_take]
        omega
      · refine ih (lines.drop e.content.length) ?_
        simp only [List.length_drop]
        omega

theorem srt_structure_helper (svc : String → String → Except String String)
    (cache : TranslationCache) (file : SrtFile)
    (target_language from_language : String) (now : ℚ) :
    (TranslationManager.translate_srt_file svc cache file target_language
        from_language now).1.entries.length = file.entries.length ∧
    (TranslationManager.translate_srt_file svc cache file target_language
        from_language now).1.entries.map (fun e => e.content.length) =
      file.entries.map fun e => e.content.length := by
  rw [TranslationManager.translate_srt_file]
  simp only
  constructor
  · exact rebuildEntries_length _ _
  · refine rebuildEntries_content_lengths _ _ ?_
    rw [List.length_map, translate_batch_length, List.length_flatten, List.map_map]
    exact le_of_eq (by simp [Function.comp_def])

/-- C4: `translate_srt_file` on any input file and any service behavior — any
mix of per-line successes and failures, including whole-batch exceptions —
returns a file with exactly the input's entry count and, entry by entry, the
input's content line count. -/
theorem translate_srt_file_structure (svc : String → String → Except String String)
    (cache : TranslationCache) (file : SrtFile)
    (target_language from_language : String) (now : ℚ) :
    (TranslationManager.translate_srt_file svc cache file target_language
        from_language now).1.entries.length = file.entries.length ∧
    (TranslationManager.translate_srt_file svc cache file target_language
        from_language now).1.entries.map (fun e => e.content.length) =
      file.entries.map fun e => e.content.length :=
  srt_structure_helper svc cache file target_language from_language now

/-- C5 counterexample: in `TranslationManager.translate_srt_file` a failed unit
is NOT passed through with its original text.  With a service that always
throws, the single line "Hello" comes back as the failure response's empty
`translated_text`, not as "Hello". -/
theorem file_unit_failure_original_refuted :
    (TranslationManager.translate_srt_file (fun _ _ => .error "boom") ⟨1000, []⟩
        ⟨[⟨1, "00:00:01,000", "00:00:05,000", ["Hello"]⟩]⟩ "Spanish" "auto" 0).1.entries ≠
      [⟨1, "00:00:01,000", "00:00:05,000", ["Hello"]⟩] ∧
    (TranslationManager.translate_srt_file (fun _ _ => .error "boom") ⟨1000, []⟩
        ⟨[⟨1, "00:00:01,000", "00:00:05,000", ["Hello"]⟩]⟩ "Spanish" "auto" 0).1.entries =
      [⟨1, "00:00:01,000", "00:00:05,000", [""]⟩] := by
  decide

/-- C5 as amended: in the concurrency-gate whole-file path (`ai_layer`'s
`AITranslator`), a unit whose client call fails appears in the output as the
original entry unchanged, the job returns one output per input in order, and
each unit's result depends only on its own entry; in
`TranslationManager.translate_srt_file` a unit failure never aborts the job —
the output keeps the full per-entry structure — but a failed line is replaced
by the failure result's empty `translatedText` rather than by the original
line, as the concrete always-failing scenario shows. -/
theorem unit_failure_isolation (client svc : String → String → Except String String)
    (entries : List SubtitleEntry) (target_language : String)
    (cache : TranslationCache) (file : SrtFile) (tl fl : String) (now : ℚ)
    (i : ℕ) (en : SubtitleEntry) (e : String)
    (hi : entries[i]? = some en)
    (hfail : client en.text target_language = .error e) :
    (AITranslator.translate_srt_file client entries target_language).length =
      entries.length ∧
    (AITranslator.translate_srt_file client entries target_language)[i]? = some en ∧
    (TranslationManager.translate_srt_file svc cache file tl fl now).1.entries.map
        (fun x => x.content.length) = file.entries.map (fun x => x.content.length) ∧
    (TranslationManager.translate_srt_file (fun _ _ => .error "boom") ⟨1000, []⟩
        ⟨[⟨1, "t0", "t1", ["Hello"]⟩, ⟨2, "t2", "t3", ["World", "Again"]⟩]⟩
        "Spanish" "auto" 0).1.entries =
      [⟨1, "t0", "t1", [""]⟩, ⟨2, "t2", "t3", ["", ""]⟩] := by
  refine ⟨?_, ?_, (srt_structure_helper svc cache file tl fl now).2, by decide⟩
  · rw [AITranslator.translate_srt_file]
    exact List.length_map _ _
  · rw [AITranslator.translate_srt_file, List.getElem?_map, hi, Option.map_some']
    rw [AITranslator.translate_subtitle_entry, hfail]

/-- Witness for the amended C5: one entry whose client call fails is returned
unchanged by the `AITranslator` path, and the manager path keeps the full
structure. -/
theorem unit_failure_isolation_witness :
    (AITranslator.translate_srt_file (fun _ _ => .error "err")
        [⟨1, "a", "b", ["x"]⟩] "Spanish").length = ([⟨1, "a", "b", ["x"]⟩] :
          List SubtitleEntry).length ∧
    (AITranslator.translate_srt_file (fun _ _ => .error "err")
        [⟨1, "a", "b", ["x"]⟩] "Spanish")[0]? = some ⟨1, "a", "b", ["x"]⟩ ∧
    (TranslationManager.translate_srt_file (fun _ _ => .error "err") ⟨1000, []⟩
        ⟨[⟨1, "a", "b", ["x"]⟩]⟩ "Spanish" "auto" 0).1.entries.map
        (fun x => x.content.length) =
      (⟨[⟨1, "a", "b", ["x"]⟩]⟩ : SrtFile).entries.map (fun x => x.content.length) ∧
    (TranslationManager.translate_srt_file (fun _ _ => .error "boom") ⟨1000, []⟩
        ⟨[⟨1, "t0", "t1", ["Hello"]⟩, ⟨2, "t2", "t3", ["World", "Again"]⟩]⟩
        "Spanish" "auto" 0).1.entries =
      [⟨1, "t0", "t1", [""]⟩, ⟨2, "t2", "t3", ["", ""]⟩] :=
  unit_failure_isolation (fun _ _ => .error "err") (fun _ _ => .error "err")
    [⟨1, "a", "b", ["x"]⟩] "Spanish" ⟨1000, []⟩ ⟨[⟨1, "a", "b", ["x"]⟩]⟩ "Spanish" "auto" 0
    0 ⟨1, "a", "b", ["x"]⟩ "err" rfl rfl

theorem find?_map_assign (entries : List CacheEntry) (key : String)
    (r : TranslationResponse) (now : ℚ)
    (h : entries.any (fun e => e.key = key)) :
    (entries.map (fun e => if e.key = key then ⟨key, r, now⟩ else e)).find?
        (fun e => e.key = key) = some ⟨key, r, now⟩ := by
  induction entries with
  | nil => simp at h
  | cons a es ih =>
      by_cases ha : a.key = key
      · simp only [List.map_cons, if_pos ha]
        rw [List.find?_cons_of_pos _ (by simp)]
      · simp only [List.any_cons] at h
        simp only [List.map_cons, if_neg ha]
        rw [List.find?_cons_of_neg _ (by simpa using ha)]
        refine ih ?_
        rcases (Bool.or_eq_true _ _ ▸ h : _ ∨ _) with h1 | h1
        · exact absurd (by simpa using h1) ha
        · exact h1

theorem find?_append_new (entries : List CacheEntry) (key : String)
    (r : TranslationResponse) (now : ℚ)
    (h : ¬ entries.any (fun e => e.key = key)) :
    (entries ++ [(⟨key, r, now⟩ : CacheEntry)]).find? (fun e => e.key = key) =
      some ⟨key, r, now⟩ := by
  induction entries with
  | nil =>
      simp only [List.nil_append]
      rw [List.find?_cons_of_pos _ (by simp)]
  | cons a es ih =>
      simp only [List.any_cons, Bool.or_eq_true, not_or] at h
      have ha : ¬ a.key = key := by
        intro hc
        exact h.1 (by simpa using hc)
      rw [List.cons_append, List.find?_cons_of_neg _ (by simpa using ha)]
      refine ih ?_
      simpa using h.2

theorem put_find (c : TranslationCache) (r : TranslationResponse) (now : ℚ) :
    (c.put r now).entries.find? (fun e => e.key = fingerprint r) =
      some ⟨fingerprint r, r, now⟩ := by
  rw [TranslationCache.put]
  by_cases hfull : c.max_size ≤ c.entries.length
  · simp only [if_pos hfull]
    by_cases hany : c.evict_lru.entries.any (fun e => e.key = fingerprint r)
    · rw [if_pos hany]
      exact find?_map_assign _ _ _ _ hany
    · rw [if_neg hany]
      exact find?_append_new _ _ _ _ hany
  · simp only [if_neg hfull]
    by_cases hany : c.entries.any (fun e => e.key = fingerprint r)
    · rw [if_pos hany]
      exact find?_map_assign _ _ _ _ hany
    · rw [if_neg hany]
      exact find?_append_new _ _ _ _ hany

theorem find?_refresh (entries : List CacheEntry) (key : String) (now : ℚ) :
    (entries.map (fun x => if x.key = key then { x with atime := now } else x)).find?
        (fun e => e.key = key) =
      (entries.find? (fun e => e.key = key)).map
        (fun x => if x.key = key then { x with atime := now } else x) := by
  induction entries with
  | nil => rfl
  | cons a es ih =>
      by_cases ha : a.key = key
      · simp only [List.map_cons, if_pos ha]
        rw [List.find?_cons_of_pos _ (by simpa using ha),
          List.find?_cons_of_pos _ (by simpa using ha)]
        simp [if_pos ha]
      · simp only [List.map_cons, if_neg ha]
        rw [List.find?_cons_of_neg _ (by simpa using ha),
          List.find?_cons_of_neg _ (by simpa using ha)]
        exact ih

/-- `TranslationCache.get` written without its `let`: the lookup and the
access-time refresh. -/
theorem get_unfold (c : TranslationCache) (text target_language source_language : String)
    (now : ℚ) :
    c.get text target_language source_language now =
      match c.entries.find? (fun e =>
          e.key = generate_key text target_language source_language) with
      | some e =>
          (some e.value,
            { c with entries := c.entries.map (fun x =>
                if x.key = generate_key text target_language source_language then
                  { x with atime := now } else x) })
      | none => (none, c) := rfl

theorem get_hit_stable (c : TranslationCache) (text target_language source_language : String)
    (t1 t2 : ℚ) (v : TranslationResponse)
    (h : (c.get text target_language source_language t1).1 = some v) :
    ((c.get text target_language source_language t1).2.get text target_language
        source_language t2).1 = some v := by
  rw [get_unfold] at h
  rw [get_unfold, get_unfold]
  cases hf : c.entries.find? (fun e =>
      e.key = generate_key text target_language source_language) with
  | none =>
      simp only [hf] at h
      cases h
  | some entry =>
      simp only [hf] at h ⊢
      rw [find?_refresh, hf]
      simp only [Option.map_some']
      split <;> simpa using h

/-- `TranslationManager.translate` written without its `let`s. -/
theorem translate_unfold (svc : String → String → Except String String)
    (cache : TranslationCache) (text target_language source_language : String)
    (now : ℚ) :
    TranslationManager.translate svc cache text target_language source_language now =
      match (cache.get text target_language source_language now).1 with
      | some cached_response =>
          (cached_response, (cache.get text target_language source_language now).2, 0)
      | none =>
          match svc text target_language with
          | .ok translated_text =>
              ({ request_id := TranslationRequest.request_id
                    ⟨text, target_language, source_language⟩
                 translated_text := translated_text
                 source_text := text
                 target_language := target_language
                 source_language := source_language },
               (cache.get text target_language source_language now).2.put
                 { request_id := TranslationRequest.request_id
                      ⟨text, target_language, source_language⟩
                   translated_text := translated_text
                   source_text := text
                   target_language := target_language
                   source_language := source_language } now, 1)
          | .error e =>
              (TranslationResponse.error ⟨text, target_language, source_language⟩ e,
               (cache.get text target_language source_language now).2, 1) := rfl

/-- C7 counterexample: with a service that always fails, two successive
`translate` calls for the same `(text, source, target)` triple issue one
service call each — two in total, not at most one: the failure is not cached,
so the second call hits the service again. -/
theorem translate_twice_single_call_refuted :
    (TranslationManager.translate (fun _ _ => .error "down") ⟨1000, []⟩
        "Hi" "French" "auto" 0).2.2 +
      (TranslationManager.translate (fun _ _ => .error "down")
        (TranslationManager.translate (fun _ _ => .error "down") ⟨1000, []⟩
          "Hi" "French" "auto" 0).2.1 "Hi" "French" "auto" 1).2.2 = 2 := by
  decide

/-- C7 as amended: when the first `translate` call returns a success result
(a cache hit, or a fresh translation that is then cached), a second call for
the same triple issues no service call, returns the very same result, and the
two calls issue at most one service call in total.  When the first call fails,
the failure is not cached and the second call issues a fresh service call, so
"at most one call" does not hold unconditionally. -/
theorem translate_idempotent_on_success (svc : String → String → Except String String)
    (cache : TranslationCache) (text target_language source_language : String)
    (now₁ now₂ : ℚ)
    (hsucc : (TranslationManager.translate svc cache text target_language
        source_language now₁).1.success = true) :
    (TranslationManager.translate svc
        (TranslationManager.translate svc cache text target_language source_language
          now₁).2.1 text target_language source_language now₂).1 =
      (TranslationManager.translate svc cache text target_language source_language
        now₁).1 ∧
    (TranslationManager.translate svc
        (TranslationManager.translate svc cache text target_language source_language
          now₁).2.1 text target_language source_language now₂).2.2 = 0 ∧
    (TranslationManager.translate svc cache text target_language source_language
        now₁).2.2 +
      (TranslationManager.translate svc
        (TranslationManager.translate svc cache text target_language source_language
          now₁).2.1 text target_language source_language now₂).2.2 ≤ 1 := by
  rw [translate_unfold svc cache text target_language source_language now₁]
  cases hl : (cache.get text target_language source_language now₁).1 with
  | some cached_response =>
      simp only [hl]
      have hget := get_hit_stable cache text target_language source_language now₁ now₂
        cached_response hl
      rw [translate_unfold]
      simp only [hget]
      exact ⟨trivial, trivial, by norm_num⟩
  | none =>
      cases hsvc : svc text target_language with
      | ok translated_text =>
          simp only [hl, hsvc]
          rw [translate_unfold]
          have hfind := put_find (cache.get text target_language source_language now₁).2
            { request_id := TranslationRequest.request_id
                ⟨text, target_language, source_language⟩
              translated_text := translated_text
              source_text := text
              target_language := target_language
              source_language := source_language } now₁
          have hkey : fingerprint
              { request_id := TranslationRequest.request_id
                  ⟨text, target_language, source_language⟩
                translated_text := translated_text
                source_text := text
                target_language := target_language
                source_language := source_language } =
              generate_key text target_language source_language := rfl
          rw [hkey] at hfind
          rw [get_unfold]
          simp only [hfind]
          exact ⟨trivial, trivial, by norm_num⟩
      | error e =>
          rw [translate_unfold] at hsucc
          simp only [hl, hsvc] at hsucc
          simp [TranslationResponse.error] at hsucc

/-- Witness for the amended C7: a concrete first call against a succeeding
mock service; the second call is served from the cache with no service call. -/
theorem translate_idempotent_on_success_witness :
    (TranslationManager.translate (fun t _ => .ok ("[Spanish] " ++ t))
        (TranslationManager.translate (fun t _ => .ok ("[Spanish] " ++ t)) ⟨1000, []⟩
          "Hello" "Spanish" "auto" 0).2.1 "Hello" "Spanish" "auto" 1).1 =
      (TranslationManager.translate (fun t _ => .ok ("[Spanish] " ++ t)) ⟨1000, []⟩
        "Hello" "Spanish" "auto" 0).1 ∧
    (TranslationManager.translate (fun t _ => .ok ("[Spanish] " ++ t))
        (TranslationManager.translate (fun t _ => .ok ("[Spanish] " ++ t)) ⟨1000, []⟩
          "Hello" "Spanish" "auto" 0).2.1 "Hello" "Spanish" "auto" 1).2.2 = 0 ∧
    (TranslationManager.translate (fun t _ => .ok ("[Spanish] " ++ t)) ⟨1000, []⟩
        "Hello" "Spanish" "auto" 0).2.2 +
      (TranslationManager.translate (fun t _ => .ok ("[Spanish] " ++ t))
        (TranslationManager.translate (fun t _ => .ok ("[Spanish] " ++ t)) ⟨1000, []⟩
          "Hello" "Spanish" "auto" 0).2.1 "Hello" "Spanish" "auto" 1).2.2 ≤ 1 :=
  translate_idempotent_on_success (fun t _ => .ok ("[Spanish] " ++ t)) ⟨1000, []⟩
    "Hello" "Spanish" "auto" 0 1 (by decide)

/-- C9: the fingerprint is the md5 of `text + "|" + source + "|" + target`, so
the two distinct triples `("a|b", src "c", tgt "d")` and
`("a", src "b|c", tgt "d")` have identical hash inputs, identical request ids
and identical cache keys; after the manager stores a result for the first
triple, a lookup for the second returns that stored result. -/
theorem fingerprint_collision :
    (("a|b", "c", "d") ≠ (("a", "b|c", "d") : String × String × String)) ∧
    hashInput "a|b" "c" "d" = hashInput "a" "b|c" "d" ∧
    TranslationRequest.request_id ⟨"a|b", "d", "c"⟩ =
      TranslationRequest.request_id ⟨"a", "d", "b|c"⟩ ∧
    generate_key "a|b" "d" "c" = generate_key "a" "d" "b|c" ∧
    ((((⟨1000, []⟩ : TranslationCache).put collResp 0).get "a" "d" "b|c" 1).1 =
      some collResp) := by
  decide

/-- `TranslationManager.translate_batch` written without its `let`s. -/
theorem translate_batch_unfold (svc : String → String → Except String String)
    (cache : TranslationCache) (texts : List String)
    (target_language source_language : String) (now : ℚ) :
    TranslationManager.translate_batch svc cache texts target_language
        source_language now =
      if (cacheGetAll cache texts target_language source_language now).1.all
          Option.isSome then
        ((cacheGetAll cache texts target_language source_language now).1.filterMap id,
         (cacheGetAll cache texts target_language source_language now).2)
      else
        match batch_translate_async svc
            (uncachedTexts texts
              (cacheGetAll cache texts target_language source_language now).1)
            target_language with
        | .ok translated_texts =>
            ((fillOk (texts.map fun text => ⟨text, target_language, source_language⟩)
                (cacheGetAll cache texts target_language source_language now).1
                translated_texts target_language source_language now
                (cacheGetAll cache texts target_language source_language now).2).1.filterMap
              id,
             (fillOk (texts.map fun text => ⟨text, target_language, source_language⟩)
                (cacheGetAll cache texts target_language source_language now).1
                translated_texts target_language source_language now
                (cacheGetAll cache texts target_language source_language now).2).2)
        | .error e =>
            ((fillErr (texts.map fun text => ⟨text, target_language, source_language⟩)
                (cacheGetAll cache texts target_language source_language now).1
                e).filterMap id,
             (cacheGetAll cache texts target_language source_language now).2) := rfl

theorem get_fst_eq_valueAt (c : TranslationCache)
    (text target_language source_language : String) (t : ℚ) :
    (c.get text target_language source_language t).1 =
      valueAt c (generate_key text target_language source_language) := by
  rw [get_unfold, valueAt]
  cases hf : c.entries.find? (fun e =>
      e.key = generate_key text target_language source_language) <;> simp [hf]

theorem find?_refresh_any (entries : List CacheEntry) (key k : String) (now : ℚ) :
    ((entries.map (fun x => if x.key = key then { x with atime := now } else x)).find?
        (fun e => e.key = k)).map CacheEntry.value =
      (entries.find? (fun e => e.key = k)).map CacheEntry.value := by
  induction entries with
  | nil => rfl
  | cons a es ih =>
      have hkeep : (if a.key = key then ({ a with atime := now } : CacheEntry) else a).key =
          a.key := by split <;> rfl
      have hval : (if a.key = key then ({ a with atime := now } : CacheEntry) else a).value =
          a.value := by split <;> rfl
      by_cases hk : a.key = k
      · rw [List.map_cons, List.find?_cons_of_pos _ (by rw [hkeep]; simpa using hk),
          List.find?_cons_of_pos _ (by simpa using hk)]
        simp [hval]
      · rw [List.map_cons, List.find?_cons_of_neg _ (by rw [hkeep]; simpa using hk),
          List.find?_cons_of_neg _ (by simpa using hk)]
        exact ih

theorem get_valueAt (c : TranslationCache)
    (text target_language source_language : String) (t : ℚ) (k : String) :
    valueAt (c.get text target_language source_language t).2 k = valueAt c k := by
  rw [get_unfold]
  cases hf : c.entries.find? (fun e =>
      e.key = generate_key text target_language source_language) with
  | none => simp [hf]
  | some entry =>
      simp only [hf]
      rw [valueAt, valueAt]
      exact find?_refresh_any _ _ _ _

theorem cacheGetAll_valueAt (texts : List String) (cache : TranslationCache)
    (target_language source_language : String) (now : ℚ) (k : String) :
    valueAt (cacheGetAll cache texts target_language source_language now).2 k =
      valueAt cache k := by
  induction texts generalizing cache with
  | nil => rfl
  | cons t ts ih =>
      simp only [cacheGetAll]
      rw [ih, get_valueAt]

theorem evict_all_success (c : TranslationCache) (hinv : CacheAllSuccess c) :
    CacheAllSuccess c.evict_lru := by
  rw [TranslationCache.evict_lru]
  rcases c with ⟨m, ents⟩
  cases ents with
  | nil => exact hinv
  | cons e es =>
      intro x hx
      simp only at hx
      exact hinv x (List.mem_of_mem_eraseP hx)

theorem put_all_success (c : TranslationCache) (r : TranslationResponse) (now : ℚ)
    (hinv : CacheAllSuccess c) (hr : r.success = true) :
    CacheAllSuccess (c.put r now) := by
  have hmap : ∀ (ents : List CacheEntry), (∀ x ∈ ents, x.value.success = true) →
      ∀ x ∈ ents.map (fun e =>
          if e.key = fingerprint r then ⟨fingerprint r, r, now⟩ else e),
        x.value.success = true := by
    intro ents h₁ x hx
    rcases List.mem_map.1 hx with ⟨y, hy, hxy⟩
    subst hxy
    split
    · exact hr
    · exact h₁ y hy
  have happ : ∀ (ents : List CacheEntry), (∀ x ∈ ents, x.value.success = true) →
      ∀ x ∈ ents ++ [(⟨fingerprint r, r, now⟩ : CacheEntry)], x.value.success = true := by
    intro ents h₁ x hx
    rcases List.mem_append.1 hx with h | h
    · exact h₁ x h
    · simp only [List.mem_singleton] at h
      subst h
      exact hr
  rw [TranslationCache.put]
  by_cases hfull : c.max_size ≤ c.entries.length
  · simp only [if_pos hfull]
    split
    · exact fun x hx => hmap _ (evict_all_success c hinv) x hx
    · exact fun x hx => happ _ (evict_all_success c hinv) x hx
  · simp only [if_neg hfull]
    split
    · exact fun x hx => hmap _ hinv x hx
    · exact fun x hx => happ _ hinv x hx

theorem get_all_success (c : TranslationCache)
    (text target_language source_language : String) (t : ℚ)
    (hinv : CacheAllSuccess c) :
    CacheAllSuccess (c.get text target_language source_language t).2 := by
  rw [get_unfold]
  cases hf : c.entries.find? (fun e =>
      e.key = generate_key text target_language source_language) with
  | none => exact hinv
  | some entry =>
      simp only
      intro x hx
      simp only at hx
      rcases List.mem_map.1 hx with ⟨y, hy, hxy⟩
      subst hxy
      have := hinv y hy
      split <;> simpa using this

theorem cacheGetAll_all_success (texts : List String) (cache : TranslationCache)
    (target_language source_language : String) (now : ℚ)
    (hinv : CacheAllSuccess cache) :
    CacheAllSuccess (cacheGetAll cache texts target_language source_language now).2 := by
  induction texts generalizing cache with
  | nil => exact hinv
  | cons t ts ih =>
      simp only [cacheGetAll]
      exact ih _ (get_all_success _ _ _ _ _ hinv)

theorem fillOk_all_success (rs : List (Option TranslationResponse))
    (reqs : List TranslationRequest) (translated : List String)
    (target_language source_language : String) (now : ℚ) (cache : TranslationCache)
    (hinv : CacheAllSuccess cache) :
    CacheAllSuccess
      (fillOk reqs rs translated target_language source_language now cache).2 := by
  induction rs generalizing reqs translated cache with
  | nil => cases reqs <;> exact hinv
  | cons r rs ih =>
      cases reqs with
      | nil => exact hinv
      | cons req reqs =>
          cases r with
          | some v =>
              simp only [fillOk]
              exact ih _ _ _ hinv
          | none =>
              cases translated with
              | nil => exact hinv
              | cons tr trs =>
                  simp only [fillOk]
                  exact ih _ _ _ (put_all_success _ _ _ hinv rfl)

theorem translate_all_success (svc : String → String → Except String String)
    (cache : TranslationCache) (text target_language source_language : String)
    (now : ℚ) (hinv : CacheAllSuccess cache) :
    CacheAllSuccess
      (TranslationManager.translate svc cache text target_language source_language
        now).2.1 := by
  rw [translate_unfold]
  cases hl : (cache.get text target_language source_language now).1 with
  | some cached_response =>
      simp only
      exact get_all_success _ _ _ _ _ hinv
  | none =>
      cases hsvc : svc text target_language with
      | ok translated_text =>
          simp only
          exact put_all_success _ _ _ (get_all_success _ _ _ _ _ hinv) rfl
      | error e =>
          simp only
          exact get_all_success _ _ _ _ _ hinv

theorem translate_batch_all_success (svc : String → String → Except String String)
    (cache : TranslationCache) (texts : List String)
    (target_language source_language : String) (now : ℚ)
    (hinv : CacheAllSuccess cache) :
    CacheAllSuccess
      (TranslationManager.translate_batch svc cache texts target_language
        source_language now).2 := by
  rw [translate_batch_unfold]
  split
  · exact cacheGetAll_all_success _ _ _ _ _ hinv
  · cases hb : batch_translate_async svc
        (uncachedTexts texts
          (cacheGetAll cache texts target_language source_language now).1)
        target_language with
    | ok translated_texts =>
        simp only [hb]
        exact fillOk_all_success _ _ _ _ _ _ _
          (cacheGetAll_all_success _ _ _ _ _ hinv)
    | error e =>
        simp only [hb]
        exact cacheGetAll_all_success _ _ _ _ _ hinv

theorem resolveOk_all_success (key : String × String)
    (group : List (ℕ × TranslationRequest)) (translated : List String) (now : ℚ)
    (cache : TranslationCache) (hinv : CacheAllSuccess cache) :
    CacheAllSuccess (resolveOk key group translated now cache).2 := by
  induction group generalizing translated cache with
  | nil => exact hinv
  | cons p grest ih =>
      obtain ⟨i, request⟩ := p
      cases translated with
      | nil => exact hinv
      | cons tr trs =>
          simp only [resolveOk]
          exact ih _ _ (put_all_success _ _ _ hinv rfl)

theorem processGroup_all_success (svc : String → String → Except String String)
    (key : String × String) (group : List (ℕ × TranslationRequest)) (now : ℚ)
    (cache : TranslationCache) (hinv : CacheAllSuccess cache) :
    CacheAllSuccess (processGroup svc key group now cache).2 := by
  rw [processGroup]
  cases hb : batch_translate_async svc (group.map fun p => p.2.text) key.1 with
  | ok translated_texts => exact resolveOk_all_success _ _ _ _ _ hinv
  | error e => exact hinv

theorem processGroups_all_success (svc : String → String → Except String String)
    (groups : List ((String × String) × List (ℕ × TranslationRequest))) (now : ℚ)
    (cache : TranslationCache) (hinv : CacheAllSuccess cache) :
    CacheAllSuccess (processGroups svc groups now cache).2 := by
  induction groups generalizing cache with
  | nil => exact hinv
  | cons g rest ih =>
      obtain ⟨key, grp⟩ := g
      simp only [processGroups]
      exact ih _ (processGroup_all_success _ _ _ _ _ hinv)

/-- C10: failure results are never stored in the cache.  (a) A failed
`translate` (miss followed by a service error) returns the failure result and
leaves the cache exactly as it was, (b) so an immediately following call for
the same triple misses again and issues a fresh service call;
(c) `translate_batch`'s exception path changes no key's bound response, and
(d) the coordinator's partition failure path leaves the cache untouched;
(e) consequently — since all three success paths store only responses built
with `success = True` — every entry ever stored in the cache is a success
result, for any service, cache state satisfying the invariant, and inputs. -/
theorem failures_never_cached (svc svc₂ : String → String → Except String String)
    (cache cache₂ : TranslationCache)
    (text target_language source_language : String) (texts texts₂ : List String)
    (text₂ tl₂ sl₂ : String) (batch₂ : List TranslationRequest)
    (now now₂ now₃ : ℚ) (e e₂ e₃ : String) (key : String × String)
    (group : List (ℕ × TranslationRequest))
    (hmiss : valueAt cache (generate_key text target_language source_language) = none)
    (hsvc : svc text target_language = .error e)
    (hbatch : batch_translate_async svc
        (uncachedTexts texts
          (cacheGetAll cache texts target_language source_language now).1)
        target_language = .error e₂)
    (hgroup : batch_translate_async svc (group.map fun p => p.2.text) key.1 = .error e₃)
    (hinv : CacheAllSuccess cache₂) :
    (TranslationManager.translate svc cache text target_language source_language
        now).1 =
      TranslationResponse.error ⟨text, target_language, source_language⟩ e ∧
    (TranslationManager.translate svc cache text target_language source_language
        now).2.1 = cache ∧
    (TranslationManager.translate svc
        (TranslationManager.translate svc cache text target_language source_language
          now).2.1 text target_language source_language now₂).2.2 = 1 ∧
    (∀ k, valueAt (TranslationManager.translate_batch svc cache texts target_language
        source_language now).2 k = valueAt cache k) ∧
    (processGroup svc key group now cache).2 = cache ∧
    CacheAllSuccess (TranslationManager.translate svc₂ cache₂ text₂ tl₂ sl₂ now₃).2.1 ∧
    CacheAllSuccess (TranslationManager.translate_batch svc₂ cache₂ texts₂ tl₂ sl₂
      now₃).2 ∧
    CacheAllSuccess (processBatch svc₂ batch₂ now₃ cache₂).2 := by
  have hget1 : (cache.get text target_language source_language now).1 = none := by
    rw [get_fst_eq_valueAt, hmiss]
  have hget2 : (cache.get text target_language source_language now).2 = cache := by
    rw [get_unfold]
    rw [valueAt] at hmiss
    cases hf : cache.entries.find? (fun x =>
        x.key = generate_key text target_language source_language) with
    | none => rfl
    | some entry =>
        rw [hf] at hmiss
        simp at hmiss
  have hfirst : TranslationManager.translate svc cache text target_language
      source_language now =
      (TranslationResponse.error ⟨text, target_language, source_language⟩ e, cache, 1) := by
    rw [translate_unfold]
    simp only [hget1, hsvc, hget2]
  refine ⟨by rw [hfirst], by rw [hfirst], ?_, ?_, ?_, ?_, ?_, ?_⟩
  · rw [hfirst]
    simp only
    rw [translate_unfold]
    have hg : (cache.get text target_language source_language now₂).1 = none := by
      rw [get_fst_eq_valueAt, hmiss]
    simp only [hg, hsvc]
  · intro k
    rw [translate_batch_unfold]
    split
    · exact cacheGetAll_valueAt _ _ _ _ _ _
    · simp only [hbatch]
      exact cacheGetAll_valueAt _ _ _ _ _ _
  · rw [processGroup]
    simp only [hgroup]
  · exact translate_all_success _ _ _ _ _ _ hinv
  · exact translate_batch_all_success _ _ _ _ _ _ hinv
  · exact processGroups_all_success _ _ _ _ hinv

/-- Witness for C10 at a concrete failing service and empty caches. -/
theorem failures_never_cached_witness :
    (TranslationManager.translate (fun _ _ => .error "x") ⟨5, []⟩ "t" "d" "s" 0).1 =
      TranslationResponse.error ⟨"t", "d", "s"⟩ "x" ∧
    (TranslationManager.translate (fun _ _ => .error "x") ⟨5, []⟩ "t" "d" "s" 0).2.1 =
      (⟨5, []⟩ : TranslationCache) ∧
    (TranslationManager.translate (fun _ _ => .error "x")
        (TranslationManager.translate (fun _ _ => .error "x") ⟨5, []⟩ "t" "d" "s"
          0).2.1 "t" "d" "s" 1).2.2 = 1 ∧
    (∀ k, valueAt (TranslationManager.translate_batch (fun _ _ => .error "x") ⟨5, []⟩
        ["u"] "d" "s" 0).2 k = valueAt ⟨5, []⟩ k) ∧
    (processGroup (fun _ _ => .error "x") ("d", "s") [(0, ⟨"g", "d", "s"⟩)] 0
        ⟨5, []⟩).2 = (⟨5, []⟩ : TranslationCache) ∧
    CacheAllSuccess (TranslationManager.translate (fun _ _ => .error "x") ⟨5, []⟩
      "t" "d" "s" 0).2.1 ∧
    CacheAllSuccess (TranslationManager.translate_batch (fun _ _ => .error "x")
      ⟨5, []⟩ ["u"] "d" "s" 0).2 ∧
    CacheAllSuccess (processBatch (fun _ _ => .error "x") [⟨"b", "d", "s"⟩] 0
      ⟨5, []⟩).2 :=
  failures_never_cached (fun _ _ => .error "x") (fun _ _ => .error "x") ⟨5, []⟩ ⟨5, []⟩
    "t" "d" "s" ["u"] ["u"] "t" "d" "s" [⟨"b", "d", "s"⟩] 0 1 0 "x" "x" "x" ("d", "s")
    [(0, ⟨"g", "d", "s"⟩)] rfl rfl rfl rfl
    (by intro x hx; cases hx)

/-- C6 counterexample: after the manager caches a result for the triple
`("a|b", src "c", tgt "d")`, `translate_batch ["a"]` with source `"b|c"` and
target `"d"` returns that colliding cached result: the single output's
`sourceText` is `"a|b"`, not the input text `"a"`. -/
theorem translate_batch_order_refuted :
    ((TranslationManager.translate_batch (fun t _ => .ok t)
        (TranslationManager.translate (fun t _ => .ok t) ⟨1000, []⟩ "a|b" "d" "c"
          0).2.1 ["a"] "d" "b|c" 1).1.map TranslationResponse.source_text ≠ ["a"]) ∧
    ((TranslationManager.translate_batch (fun t _ => .ok t)
        (TranslationManager.translate (fun t _ => .ok t) ⟨1000, []⟩ "a|b" "d" "c"
          0).2.1 ["a"] "d" "b|c" 1).1.map TranslationResponse.source_text = ["a|b"]) := by
  decide

theorem get_hit_source (c : TranslationCache)
    (text target_language source_language : String) (t : ℚ) (v : TranslationResponse)
    (h : (c.get text target_language source_language t).1 = some v) :
    ∃ x ∈ c.entries,
      x.key = generate_key text target_language source_language ∧ x.value = v := by
  rw [get_unfold] at h
  cases hf : c.entries.find? (fun e =>
      e.key = generate_key text target_language source_language) with
  | none =>
      simp only [hf] at h
      cases h
  | some entry =>
      simp only [hf] at h
      cases h
      refine ⟨entry, List.mem_of_find?_eq_some hf, ?_, rfl⟩
      have := List.find?_some hf
      simpa using this

theorem get_snd_key_value (c : TranslationCache)
    (text target_language source_language : String) (t : ℚ) :
    ∀ x ∈ (c.get text target_language source_language t).2.entries,
      ∃ y ∈ c.entries, x.key = y.key ∧ x.value = y.value := by
  rw [get_unfold]
  cases hf : c.entries.find? (fun e =>
      e.key = generate_key text target_language source_language) with
  | none =>
      intro x hx
      exact ⟨x, hx, rfl, rfl⟩
  | some entry =>
      intro x hx
      simp only at hx
      rcases List.mem_map.1 hx with ⟨y, hy, hxy⟩
      subst hxy
      refine ⟨y, hy, ?_, ?_⟩ <;> split <;> rfl

theorem cacheGetAll_aligned (texts : List String) (cache : TranslationCache)
    (target_language source_language : String) (now : ℚ)
    (hnc : ∀ x ∈ cache.entries, ∀ t ∈ texts,
      x.key = generate_key t target_language source_language →
        x.value.source_text = t) :
    List.Forall₂ (fun t r => ∀ v, r = some v → v.source_text = t) texts
      (cacheGetAll cache texts target_language source_language now).1 := by
  induction texts generalizing cache with
  | nil => exact List.Forall₂.nil
  | cons t ts ih =>
      simp only [cacheGetAll]
      refine List.Forall₂.cons ?_ ?_
      · intro v hv
        obtain ⟨x, hx, hkey, hval⟩ := get_hit_source cache t target_language
          source_language now v hv
        rw [← hval]
        exact hnc x hx t (List.mem_cons_self _ _) hkey
      · refine ih _ ?_
        intro x hx t₂ ht₂ hkey
        obtain ⟨y, hy, hk, hv⟩ := get_snd_key_value cache t target_language
          source_language now x hx
        rw [hv]
        exact hnc y hy t₂ (List.mem_cons_of_mem _ ht₂) (hk ▸ hkey)

theorem filterMap_sources_of_all_some (texts : List String)
    (rs : List (Option TranslationResponse))
    (halign : List.Forall₂ (fun t r => ∀ v, r = some v → v.source_text = t) texts rs)
    (hsome : ∀ x ∈ rs, x.isSome) :
    (rs.filterMap id).map TranslationResponse.source_text = texts := by
  induction halign with
  | nil => rfl
  | cons hhead htail ih =>
      rename_i t r ts rs₂
      cases r with
      | none =>
          have := hsome none (List.mem_cons_self _ _)
          simp at this
      | some v =>
          simp only [List.filterMap_cons, id_eq, List.map_cons]
          rw [ih fun x hx => hsome x (List.mem_cons_of_mem _ hx)]
          rw [hhead v rfl]

theorem filterMap_sources_of_filled (texts : List String)
    (rs : List (Option TranslationResponse))
    (hfill : List.Forall₂ (fun t r => ∃ v, r = some v ∧ v.source_text = t) texts rs) :
    (rs.filterMap id).map TranslationResponse.source_text = texts := by
  induction hfill with
  | nil => rfl
  | cons hhead htail ih =>
      rename_i t r ts rs₂
      obtain ⟨v, hv, hsrc⟩ := hhead
      subst hv
      simp only [List.filterMap_cons, id_eq, List.map_cons]
      rw [ih, hsrc]

theorem fillOk_filled (texts : List String) (rs : List (Option TranslationResponse))
    (translated : List String) (target_language source_language : String) (now : ℚ)
    (cache : TranslationCache)
    (halign : List.Forall₂ (fun t r => ∀ v, r = some v → v.source_text = t) texts rs)
    (htr : rs.countP (fun r => r.isNone) ≤ translated.length) :
    List.Forall₂ (fun t r => ∃ v, r = some v ∧ v.source_text = t) texts
      (fillOk (texts.map fun text => ⟨text, target_language, source_language⟩) rs
        translated target_language source_language now cache).1 := by
  induction halign generalizing translated cache with
  | nil => exact List.Forall₂.nil
  | cons hhead htail ih =>
      rename_i t r ts rs₂
      cases r with
      | some v =>
          simp only [List.map_cons, fillOk]
          refine List.Forall₂.cons ⟨v, rfl, hhead v rfl⟩ ?_
          refine ih translated cache ?_
          simpa [List.countP_cons] using htr
      | none =>
          have htr' : rs₂.countP (fun r => r.isNone) + 1 ≤ translated.length := by
            simpa [List.countP_cons] using htr
          cases translated with
          | nil => simp at htr'
          | cons tr trs =>
              simp only [List.map_cons, fillOk]
              refine List.Forall₂.cons ⟨_, rfl, rfl⟩ ?_
              refine ih trs _ ?_
              simp only [List.length_cons] at htr'
              omega

theorem fillErr_filled (texts : List String) (rs : List (Option TranslationResponse))
    (e : String) (target_language source_language : String)
    (halign : List.Forall₂ (fun t r => ∀ v, r = some v → v.source_text = t) texts rs) :
    List.Forall₂ (fun t r => ∃ v, r = some v ∧ v.source_text = t) texts
      (fillErr (texts.map fun text => ⟨text, target_language, source_language⟩) rs e) := by
  induction halign with
  | nil => exact List.Forall₂.nil
  | cons hhead htail ih =>
      rename_i t r ts rs₂
      cases r with
      | some v =>
          simp only [List.map_cons, fillErr]
          exact List.Forall₂.cons ⟨v, rfl, hhead v rfl⟩ ih
      | none =>
          simp only [List.map_cons, fillErr]
          exact List.Forall₂.cons ⟨_, rfl, rfl⟩ ih

/-- C6 as amended: `translate_batch` returns one result per input text in the
caller's original order — cache hits, fresh successes and failure results all
at their original positions — with the `i`-th result's `sourceText` equal to
the `i`-th input text, provided no stored cache entry's fingerprint collides
with a queried triple's fingerprint (triples whose `text|source|target` hash
inputs coincide, e.g. via `"|"` inside the text, may return the colliding
entry instead — see the counterexample). -/
theorem translate_batch_order (svc : String → String → Except String String)
    (cache : TranslationCache) (texts : List String)
    (target_language source_language : String) (now : ℚ)
    (hnc : ∀ x ∈ cache.entries, ∀ t ∈ texts,
      x.key = generate_key t target_language source_language →
        x.value.source_text = t) :
    (TranslationManager.translate_batch svc cache texts target_language
        source_language now).1.length = texts.length ∧
    (TranslationManager.translate_batch svc cache texts target_language
        source_language now).1.map TranslationResponse.source_text = texts := by
  refine ⟨translate_batch_length svc cache texts target_language source_language now, ?_⟩
  have halign := cacheGetAll_aligned texts cache target_language source_language now hnc
  have hget := cacheGetAll_length texts cache target_language source_language now
  rw [translate_batch_unfold]
  by_cases hall :
      (cacheGetAll cache texts target_language source_language now).1.all Option.isSome
  · rw [if_pos hall]
    exact filterMap_sources_of_all_some texts _ halign
      (fun x hx => List.all_eq_true.1 hall x hx)
  · rw [if_neg hall]
    cases hb : batch_translate_async svc
        (uncachedTexts texts
          (cacheGetAll cache texts target_language source_language now).1)
        target_language with
    | ok translated_texts =>
        refine filterMap_sources_of_filled texts _ ?_
        refine fillOk_filled texts _ translated_texts target_language source_language
          now _ halign ?_
        rw [batch_translate_async_ok_length svc _ _ _ hb,
          uncachedTexts_length texts _ hget.symm]
    | error e =>
        exact filterMap_sources_of_filled texts _
          (fillErr_filled texts _ e target_language source_language halign)

/-- Witness for the amended C6: two texts, one cached hit (stored for the same
triple) and one fresh success, returned in order with matching source texts. -/
theorem translate_batch_order_witness :
    (TranslationManager.translate_batch (fun t _ => .ok t)
        (TranslationManager.translate (fun t _ => .ok t) ⟨1000, []⟩ "hello" "d" "s"
          0).2.1 ["hello", "world"] "d" "s" 1).1.length = (["hello", "world"] :
          List String).length ∧
    (TranslationManager.translate_batch (fun t _ => .ok t)
        (TranslationManager.translate (fun t _ => .ok t) ⟨1000, []⟩ "hello" "d" "s"
          0).2.1 ["hello", "world"] "d" "s" 1).1.map TranslationResponse.source_text =
      ["hello", "world"] :=
  translate_batch_order (fun t _ => .ok t)
    (TranslationManager.translate (fun t _ => .ok t) ⟨1000, []⟩ "hello" "d" "s" 0).2.1
    ["hello", "world"] "d" "s" 1 (by decide)

theorem lookupGroup_addToGroups (gs : List ((String × String) × List (ℕ × TranslationRequest)))
    (k kq : String × String) (it : ℕ × TranslationRequest) :
    lookupGroup (addToGroups gs k it) kq =
      if kq = k then some ((lookupGroup gs k).getD [] ++ [it])
      else lookupGroup gs kq := by
  induction gs with
  | nil =>
      simp only [addToGroups, lookupGroup]
      by_cases h : kq = k
      · subst h
        rw [if_pos rfl, if_pos rfl]
        rfl
      · rw [if_neg (fun hc => h hc.symm), if_neg h]
  | cons hd rest ih =>
      obtain ⟨k₁, g⟩ := hd
      simp only [addToGroups]
      by_cases h1 : k₁ = k
      · subst h1
        simp only [if_pos rfl, lookupGroup]
        by_cases h2 : k₁ = kq
        · subst h2
          rw [if_pos rfl, if_pos rfl]
          simp [lookupGroup]
        · rw [if_neg h2, if_neg (fun hc => h2 hc.symm)]
          simp [lookupGroup, h2]
      · rw [if_neg h1]
        simp only [lookupGroup]
        by_cases h2 : k₁ = kq
        · subst h2
          rw [if_pos rfl, if_neg (fun hc => h1 hc)]
          simp [lookupGroup]
        · rw [if_neg h2, ih]
          simp [lookupGroup, h1, h2]

theorem lookupGroup_foldl_getD (items : List (ℕ × TranslationRequest))
    (gs : List ((String × String) × List (ℕ × TranslationRequest)))
    (kq : String × String) :
    (lookupGroup (items.foldl (fun gs p => addToGroups gs (requestKey p.2) p) gs)
        kq).getD [] =
      (lookupGroup gs kq).getD [] ++ items.filter (fun p => requestKey p.2 = kq) := by
  induction items generalizing gs with
  | nil => simp
  | cons p items ih =>
      simp only [List.foldl_cons]
      rw [ih]
      by_cases h : requestKey p.2 = kq
      · rw [List.filter_cons, if_pos (by simpa using h)]
        rw [lookupGroup_addToGroups, if_pos h.symm]
        subst h
        simp [List.append_assoc]
      · rw [List.filter_cons, if_neg (by simpa using h)]
        rw [lookupGroup_addToGroups, if_neg (fun hc => h hc.symm)]

theorem lookupGroup_mem (gs : List ((String × String) × List (ℕ × TranslationRequest)))
    (k : String × String) (g : List (ℕ × TranslationRequest))
    (h : lookupGroup gs k = some g) : (k, g) ∈ gs := by
  induction gs with
  | nil => cases h
  | cons hd rest ih =>
      obtain ⟨k₁, g₁⟩ := hd
      simp only [lookupGroup] at h
      split at h
      · cases h
        rename_i heq
        subst heq
        exact List.mem_cons_self _ _
      · exact List.mem_cons_of_mem _ (ih h)

theorem mem_lookupGroup (gs : List ((String × String) × List (ℕ × TranslationRequest)))
    (k : String × String) (g : List (ℕ × TranslationRequest))
    (hmem : (k, g) ∈ gs) (hnodup : (gs.map Prod.fst).Nodup) :
    lookupGroup gs k = some g := by
  induction gs with
  | nil => cases hmem
  | cons hd rest ih =>
      obtain ⟨k₁, g₁⟩ := hd
      simp only [List.map_cons, List.nodup_cons] at hnodup
      rcases List.mem_cons.1 hmem with h | h
      · cases h
        simp [lookupGroup]
      · have hk : k₁ ≠ k := by
          intro hc
          subst hc
          exact hnodup.1 (List.mem_map.2 ⟨(k₁, g), h, rfl⟩)
        simp only [lookupGroup, if_neg hk]
        exact ih h hnodup.2

theorem lookupGroup_none_of_not_mem
    (gs : List ((String × String) × List (ℕ × TranslationRequest)))
    (k : String × String) (h : k ∉ gs.map Prod.fst) : lookupGroup gs k = none := by
  induction gs with
  | nil => rfl
  | cons hd rest ih =>
      obtain ⟨k₁, g₁⟩ := hd
      simp only [List.map_cons, List.mem_cons, not_or] at h
      simp only [lookupGroup, if_neg (fun hc : k₁ = k => h.1 hc.symm)]
      exact ih h.2

theorem addToGroups_keys (gs : List ((String × String) × List (ℕ × TranslationRequest)))
    (k : String × String) (it : ℕ × TranslationRequest) :
    (addToGroups gs k it).map Prod.fst =
      if k ∈ gs.map Prod.fst then gs.map Prod.fst else gs.map Prod.fst ++ [k] := by
  induction gs with
  | nil => simp [addToGroups]
  | cons hd rest ih =>
      obtain ⟨k₁, g₁⟩ := hd
      simp only [addToGroups]
      by_cases h1 : k₁ = k
      · subst h1
        simp
      · rw [if_neg h1]
        simp only [List.map_cons, ih, List.mem_cons]
        by_cases h2 : k ∈ rest.map Prod.fst
        · rw [if_pos h2, if_pos (Or.inr h2)]
        · rw [if_neg h2, if_neg (by
            rintro (hc | hc)
            · exact h1 hc.symm
            · exact h2 hc)]
          simp

theorem addToGroups_keysNodup
    (gs : List ((String × String) × List (ℕ × TranslationRequest)))
    (k : String × String) (it : ℕ × TranslationRequest)
    (h : (gs.map Prod.fst).Nodup) : ((addToGroups gs k it).map Prod.fst).Nodup := by
  rw [addToGroups_keys]
  split
  · exact h
  · rename_i hnot
    simp only [List.nodup_append, List.nodup_singleton]
    exact ⟨h, by trivial, by
      intro a ha hb
      simp only [List.mem_singleton] at hb
      subst hb
      exact hnot ha⟩

theorem by_language_keysNodup (batch : List TranslationRequest) :
    ((by_language batch).map Prod.fst).Nodup := by
  rw [by_language]
  generalize hstart : ([] : List ((String × String) × List (ℕ × TranslationRequest))) = gs
  have hn : (gs.map Prod.fst).Nodup := by
    subst hstart
    simp
  clear hstart
  induction batch.enum generalizing gs with
  | nil => exact hn
  | cons p items ih =>
      simp only [List.foldl_cons]
      exact ih _ (addToGroups_keysNodup _ _ _ hn)

theorem by_language_lookup (batch : List TranslationRequest) (k : String × String)
    (g : List (ℕ × TranslationRequest))
    (h : lookupGroup (by_language batch) k = some g) : g = partitionOf batch k := by
  have hg := lookupGroup_foldl_getD batch.enum [] k
  rw [by_language] at h
  rw [h] at hg
  simpa [partitionOf] using hg

theorem by_language_mem (batch : List TranslationRequest) (k : String × String)
    (g : List (ℕ × TranslationRequest)) (h : (k, g) ∈ by_language batch) :
    g = partitionOf batch k :=
  by_language_lookup batch k g
    (mem_lookupGroup _ _ _ h (by_language_keysNodup batch))

theorem by_language_mem_of_nonempty (batch : List TranslationRequest)
    (k : String × String) (hne : partitionOf batch k ≠ []) :
    (k, partitionOf batch k) ∈ by_language batch := by
  have hg := lookupGroup_foldl_getD batch.enum [] k
  cases hl : lookupGroup (by_language batch) k with
  | none =>
      rw [by_language] at hl
      rw [hl] at hg
      simp only [Option.getD_none, lookupGroup, Option.getD_none, List.nil_append] at hg
      exact absurd hg.symm hne
  | some g =>
      have := by_language_lookup batch k g hl
      subst this
      exact lookupGroup_mem _ _ _ hl

theorem resolveOk_fst_cache_indep (key : String × String)
    (group : List (ℕ × TranslationRequest)) (translated : List String) (now : ℚ)
    (c c₂ : TranslationCache) :
    (resolveOk key group translated now c).1 = (resolveOk key group translated now c₂).1 := by
  induction group generalizing translated c c₂ with
  | nil => rfl
  | cons p grest ih =>
      obtain ⟨i, request⟩ := p
      cases translated with
      | nil => rfl
      | cons tr trs =>
          simp only [resolveOk]
          rw [ih]

theorem processGroup_fst_cache_indep (svc : String → String → Except String String)
    (key : String × String) (group : List (ℕ × TranslationRequest)) (now : ℚ)
    (c c₂ : TranslationCache) :
    (processGroup svc key group now c).1 = (processGroup svc key group now c₂).1 := by
  rw [processGroup, processGroup]
  cases batch_translate_async svc (group.map fun p => p.2.text) key.1 with
  | ok translated_texts => exact resolveOk_fst_cache_indep _ _ _ _ _ _
  | error e => rfl

theorem mem_processGroups (svc : String → String → Except String String)
    (gs : List ((String × String) × List (ℕ × TranslationRequest)))
    (key : String × String) (g : List (ℕ × TranslationRequest)) (now : ℚ)
    (cache : TranslationCache) (x : ℕ × TranslationResponse)
    (hmem : (key, g) ∈ gs) (hx : x ∈ (processGroup svc key g now cache).1) :
    x ∈ (processGroups svc gs now cache).1 := by
  induction gs generalizing cache with
  | nil => cases hmem
  | cons hd rest ih =>
      obtain ⟨k₁, g₁⟩ := hd
      simp only [processGroups]
      rcases List.mem_cons.1 hmem with h | h
      · cases h
        exact List.mem_append.2 (Or.inl hx)
      · refine List.mem_append.2 (Or.inr ?_)
        refine ih _ h ?_
        rw [processGroup_fst_cache_indep svc key g now _ cache]
        exact hx

theorem resolveOk_pairs (key : String × String) (group : List (ℕ × TranslationRequest))
    (translated : List String) (now : ℚ) (cache : TranslationCache) :
    ∀ x ∈ (resolveOk key group translated now cache).1,
      (x.2.target_language, x.2.source_language) = key := by
  induction group generalizing translated cache with
  | nil => intro x hx; cases hx
  | cons p grest ih =>
      obtain ⟨i, request⟩ := p
      cases translated with
      | nil => intro x hx; cases hx
      | cons tr trs =>
          simp only [resolveOk]
          intro x hx
          rcases List.mem_cons.1 hx with h | h
          · subst h
            rfl
          · exact ih trs _ x h

theorem processGroup_pairs (svc : String → String → Except String String)
    (key : String × String) (group : List (ℕ × TranslationRequest)) (now : ℚ)
    (cache : TranslationCache)
    (hkeys : ∀ p ∈ group, requestKey p.2 = key) :
    ∀ x ∈ (processGroup svc key group now cache).1,
      (x.2.target_language, x.2.source_language) = key := by
  rw [processGroup]
  cases hb : batch_translate_async svc (group.map fun p => p.2.text) key.1 with
  | ok translated_texts => exact resolveOk_pairs _ _ _ _ _
  | error e =>
      intro x hx
      rcases List.mem_map.1 hx with ⟨p, hp, hxp⟩
      subst hxp
      exact hkeys p hp

theorem processGroups_filter (svc : String → String → Except String String)
    (gs : List ((String × String) × List (ℕ × TranslationRequest))) (now : ℚ)
    (cache : TranslationCache) (k₂ : String × String)
    (hnodup : (gs.map Prod.fst).Nodup)
    (hkeys : ∀ kg ∈ gs, ∀ p ∈ kg.2, requestKey p.2 = kg.1) :
    (processGroups svc gs now cache).1.filter
        (fun p => (p.2.target_language, p.2.source_language) = k₂) =
      (match lookupGroup gs k₂ with
       | some g => (processGroup svc k₂ g now cache).1
       | none => []) := by
  induction gs generalizing cache with
  | nil => rfl
  | cons hd rest ih =>
      obtain ⟨k₁, g₁⟩ := hd
      simp only [processGroups, List.filter_append]
      simp only [List.map_cons, List.nodup_cons] at hnodup
      have hpairs := processGroup_pairs svc k₁ g₁ now cache
        (hkeys (k₁, g₁) (List.mem_cons_self _ _))
      have hkeys₂ : ∀ kg ∈ rest, ∀ p ∈ kg.2, requestKey p.2 = kg.1 :=
        fun kg hkg => hkeys kg (List.mem_cons_of_mem _ hkg)
      by_cases hk : k₁ = k₂
      · subst hk
        have h1 : (processGroup svc k₁ g₁ now cache).1.filter
            (fun p => (p.2.target_language, p.2.source_language) = k₁) =
            (processGroup svc k₁ g₁ now cache).1 := by
          refine List.filter_eq_self.2 ?_
          intro a ha
          simpa using hpairs a ha
        have hnone : lookupGroup rest k₁ = none := by
          refine lookupGroup_none_of_not_mem _ _ ?_
          exact hnodup.1
        rw [h1, ih _ hnodup.2 hkeys₂, hnone]
        simp [lookupGroup]
      · have h1 : (processGroup svc k₁ g₁ now cache).1.filter
            (fun p => (p.2.target_language, p.2.source_language) = k₂) = [] := by
          refine List.filter_eq_nil_iff.2 ?_
          intro a ha
          simp only [decide_eq_true_eq]
          rw [hpairs a ha]
          exact hk
        rw [h1, ih _ hnodup.2 hkeys₂, List.nil_append]
        simp only [lookupGroup, if_neg hk]
        cases hl : lookupGroup rest k₂ with
        | none => rfl
        | some g =>
            simp only
            exact processGroup_fst_cache_indep svc k₂ g now _ cache

/-- C3: if the service's batch call for the language-pair partition of request
`i` fails with message `e`, then every request of the batch belonging to that
partition has its future resolved (not raised) with the identical failure
result `TranslationResponse.error · e`; and for every other language pair the
batch's resolutions are exactly the processing of that pair's own partition,
unaffected by the failure. -/
theorem batch_partition_failure (svc : String → String → Except String String)
    (batch : List TranslationRequest) (now : ℚ) (cache : TranslationCache)
    (req : TranslationRequest) (e : String) (i : ℕ) (k₂ : String × String)
    (_hi : batch[i]? = some req)
    (hfail : batch_translate_async svc (partitionTexts batch (requestKey req))
      req.target_language = .error e) :
    (∀ j r₂, batch[j]? = some r₂ → requestKey r₂ = requestKey req →
      (j, TranslationResponse.error r₂ e) ∈ (processBatch svc batch now cache).1) ∧
    (k₂ ≠ requestKey req →
      (processBatch svc batch now cache).1.filter
          (fun p => (p.2.target_language, p.2.source_language) = k₂) =
        (processGroup svc k₂ (partitionOf batch k₂) now cache).1) := by
  constructor
  · intro j r₂ hj hkey
    have hjmem : (j, r₂) ∈ batch.enum := List.mk_mem_enum_iff_getElem?.2 hj
    have hjpart : (j, r₂) ∈ partitionOf batch (requestKey req) := by
      rw [partitionOf]
      refine List.mem_filter.2 ⟨hjmem, by simpa using hkey⟩
    have hne : partitionOf batch (requestKey req) ≠ [] := by
      intro hc
      rw [hc] at hjpart
      cases hjpart
    have hgmem := by_language_mem_of_nonempty batch (requestKey req) hne
    refine mem_processGroups svc _ _ _ now cache _ hgmem ?_
    rw [processGroup]
    have hfail' : batch_translate_async svc
        ((partitionOf batch (requestKey req)).map fun p => p.2.text)
        (requestKey req).1 = .error e := hfail
    rw [hfail']
    exact List.mem_map.2 ⟨(j, r₂), hjpart, rfl⟩
  · intro hk₂
    rw [processBatch]
    rw [processGroups_filter svc _ now cache k₂ (by_language_keysNodup batch) ?_]
    · cases hl : lookupGroup (by_language batch) k₂ with
      | none =>
          have hg := lookupGroup_foldl_getD batch.enum [] k₂
          rw [by_language] at hl
          rw [hl] at hg
          simp only [Option.getD_none, lookupGroup, List.nil_append] at hg
          have hempty : partitionOf batch k₂ = [] := by
            rw [partitionOf]
            exact hg.symm
          rw [hempty]
          rfl
      | some g =>
          simp only
          rw [by_language_lookup batch k₂ g hl]
    · intro kg hkg p hp
      have := by_language_mem batch kg.1 kg.2 hkg
      rw [this] at hp
      have := List.mem_filter.1 hp
      simpa using this.2

/-- Witness for C3: a 3-request batch with two language pairs; the service
fails for target "es", so both "es" futures resolve with the identical error
and the "fr" partition's resolutions equal its own processing. -/
theorem batch_partition_failure_witness :
    (∀ j r₂, ([⟨"x", "es", "auto"⟩, ⟨"z", "fr", "auto"⟩, ⟨"y", "es", "auto"⟩] :
        List TranslationRequest)[j]? = some r₂ →
      requestKey r₂ = requestKey ⟨"x", "es", "auto"⟩ →
      (j, TranslationResponse.error r₂ "api down") ∈
        (processBatch
          (fun t tgt => if tgt = "es" then .error "api down" else .ok ("T" ++ t))
          [⟨"x", "es", "auto"⟩, ⟨"z", "fr", "auto"⟩, ⟨"y", "es", "auto"⟩] 0
          ⟨5, []⟩).1) ∧
    (("fr", "auto") ≠ requestKey ⟨"x", "es", "auto"⟩ →
      (processBatch
          (fun t tgt => if tgt = "es" then .error "api down" else .ok ("T" ++ t))
          [⟨"x", "es", "auto"⟩, ⟨"z", "fr", "auto"⟩, ⟨"y", "es", "auto"⟩] 0
          ⟨5, []⟩).1.filter
          (fun p => (p.2.target_language, p.2.source_language) = ("fr", "auto")) =
        (processGroup
          (fun t tgt => if tgt = "es" then .error "api down" else .ok ("T" ++ t))
          ("fr", "auto")
          (partitionOf [⟨"x", "es", "auto"⟩, ⟨"z", "fr", "auto"⟩, ⟨"y", "es", "auto"⟩]
            ("fr", "auto")) 0 ⟨5, []⟩).1) :=
  batch_partition_failure
    (fun t tgt => if tgt = "es" then .error "api down" else .ok ("T" ++ t))
    [⟨"x", "es", "auto"⟩, ⟨"z", "fr", "auto"⟩, ⟨"y", "es", "auto"⟩] 0 ⟨5, []⟩
    ⟨"x", "es", "auto"⟩ "api down" 0 ("fr", "auto") rfl rfl
